import Mathlib

/-!
# Verification of the `pell991` Pell-equation solver

Shallow embedding of the Rust crate `pell991` (files `src/utils.rs`,
`src/solver.rs`, `src/error.rs`, `src/lib.rs`) together with proofs of the
specification claims.

Conventions of the embedding:
* Rust `u64` values are `Nat`s; where the source can wrap (release-mode
  two's-complement wrap-around) the embedding applies `% 2 ^ 64` explicitly.
* Rust `i128` values are `Int`s; wrap-around is modeled by `wrap128`, and the
  truncating division `/` of Rust is `Int.tdiv`.
* `num_bigint::BigInt` is `Int` (exact arbitrary-precision semantics).
* `Result<T, PellError>` is `Except PellError T`.
* The source's unbounded `loop` in `pell_min_solution` is modeled with an
  explicit fuel parameter; fuel exhaustion yields `none`.  Termination for
  valid discriminants is proved separately.
-/

namespace Pell991

/-- Embedding of `enum PellError` from `src/error.rs`. -/
inductive PellError where
  | InvalidD (d : Nat)
  | PerfectSquare (d : Nat)
  | InvalidK (k : Nat)
  deriving DecidableEq, Repr

/-- Two's-complement wrap-around of a `u64` computation (Rust release mode). -/
def wrap64 (x : Nat) : Nat := x % 2 ^ 64

/-- Two's-complement wrap-around of an `i128` computation (Rust release mode). -/
def wrap128 (x : Int) : Int := (x + 2 ^ 127) % 2 ^ 128 - 2 ^ 127

/-- The Newton refinement loop of `isqrt_u64` (`src/utils.rs` lines 46-52):
`for _ in 0..64 { let x_new = (x + n / x) / 2; if x_new >= x { break; } x = x_new; }`.
The `for` bound 64 is the structural fuel.  Addition may wrap in `u64`. -/
def newtonLoop (n : Nat) : Nat → Nat → Nat
  | 0, x => x
  | fuel + 1, x =>
    let x_new := wrap64 (x + n / x) / 2
    if x_new ≥ x then x else newtonLoop n fuel x_new

/-- The downward adjustment loop of `isqrt_u64` (`src/utils.rs` lines 55-57):
`while x * x > n { x -= 1; }`.  The multiplication may wrap in `u64`.
The loop strictly decreases `x`, so fuel `x + 1` reproduces it exactly. -/
def decLoop (n : Nat) : Nat → Nat → Nat
  | 0, x => x
  | fuel + 1, x => if wrap64 (x * x) > n then decLoop n fuel (x - 1) else x

/-- The final upward check of `isqrt_u64` (`src/utils.rs` lines 60-66):
`checked_add(1)` succeeds iff `x + 1 < 2^64`, `checked_mul` succeeds iff the
product fits in `u64`; if both succeed and `(x+1)^2 ≤ n` then `x + 1`. -/
def incCheck (n x : Nat) : Nat :=
  if x + 1 < 2 ^ 64 ∧ (x + 1) * (x + 1) < 2 ^ 64 ∧ (x + 1) * (x + 1) ≤ n then x + 1 else x

/-- Embedding of `isqrt_u64` from `src/utils.rs`, parametric in the initial
guess `g`.  The source computes the guess as `(n as f64).sqrt() as u64`; the
floating-point step is abstracted into the parameter `g`.  For every
`n < 2 ^ 64` the value actually produced by the source lies in the interval
`[Nat.sqrt n - 1, 2 ^ 32]` (the `f64` rounding error of `n` is at most
`n * 2⁻⁵³`, the square root is correctly rounded and the cast truncates, and
`(2^64 - 1 as f64).sqrt() = 2^32` exactly), and the correctness theorem below
quantifies over that whole interval. -/
def isqrt_core (n g : Nat) : Nat :=
  if n = 0 then 0
  else if n ≤ 3 then 1
  else if n ≤ 8 then 2
  else if n ≤ 15 then 3
  else
    let x0 := if g = 0 then 1 else g
    let x1 := newtonLoop n 64 x0
    let x2 := decLoop n (x1 + 1) x1
    incCheck n x2

/-- Model of the source's floating-point initial estimate
`(n as f64).sqrt() as u64` (`src/utils.rs` line 38).  Any value in
`[Nat.sqrt n - 1, 2 ^ 32]` is a faithful model (see `isqrt_core`); this one is
chosen because a single idealized Newton step from `2 ^ 32` provably lies in
that interval and is executable by kernel reduction. -/
def fguess (n : Nat) : Nat := (2 ^ 32 + n / 2 ^ 32) / 2

/-- Embedding of `isqrt_u64` from `src/utils.rs` with the modeled guess. -/
def isqrt_u64 (n : Nat) : Nat := isqrt_core n (fguess n)

/-- Embedding of `is_square_u64` from `src/utils.rs`:
`let r = isqrt_u64(n); r * r == n` (the multiplication is a `u64` one). -/
def is_square_u64 (n : Nat) : Bool :=
  let r := isqrt_u64 n
  wrap64 (r * r) == n

/-- Embedding of `is_valid_pell_d` from `src/utils.rs`. -/
def is_valid_pell_d (d : Nat) : Bool := d > 1 && !is_square_u64 d

/-- Loop state of `pell_min_solution` (`src/solver.rs` lines 54-88): the surd
parameters `m`, `d`, `a` (`i128` in the source) and the convergents
`p_prev1`, `q_prev1`, `p`, `q` (`BigInt` in the source). -/
structure PellState where
  m : Int
  d : Int
  a : Int
  p1 : Int
  q1 : Int
  p : Int
  q : Int
  deriving DecidableEq, Repr

/-- One iteration of the continued-fraction loop body after a failed test
(`src/solver.rs` lines 76-88).  The `i128` statements
`m = d * a - m; d = (D - m * m) / d; a = (a0 + m) / d;` wrap in release mode
and use truncating division; the `BigInt` convergent updates are exact. -/
def pellIter (dc a0 : Int) (s : PellState) : PellState :=
  let m' := wrap128 (s.d * s.a - s.m)
  let d' := (wrap128 (dc - m' * m')).tdiv s.d
  let a' := (wrap128 (a0 + m')).tdiv d'
  { m := m', d := d', a := a',
    p1 := s.p, q1 := s.q,
    p := a' * s.p + s.p1, q := a' * s.q + s.q1 }

/-- Initial loop state (`src/solver.rs` lines 54-66): `m = 0`, `d = 1`,
`a = a0`, convergents `p₋₂ = 0, p₋₁ = 1, q₋₂ = 1, q₋₁ = 0`,
`p = a * p₋₁ + p₋₂ = a0`, `q = a * q₋₁ + q₋₂ = 1`. -/
def pellInit (a0 : Int) : PellState :=
  { m := 0, d := 1, a := a0, p1 := 1, q1 := 0, p := a0 * 1 + 0, q := a0 * 0 + 1 }

/-- The unbounded `loop` of `pell_min_solution` (`src/solver.rs` lines 70-89),
with explicit fuel: test `p * p - D * q * q == 1`, return `(p, q)` on success,
otherwise advance the state. -/
def pellLoop (dc a0 : Int) : Nat → PellState → Option (Int × Int)
  | 0, _ => none
  | fuel + 1, s =>
    if s.p * s.p - dc * s.q * s.q = 1 then some (s.p, s.q)
    else pellLoop dc a0 fuel (pellIter dc a0 s)

/-- Embedding of `pell_min_solution` from `src/solver.rs`.  `none` means the
fuel ran out (the source loops on); `some r` is the source's returned
`Result`. -/
def pell_min_solution (fuel : Nat) (d_constant : Nat) :
    Option (Except PellError (Int × Int)) :=
  if d_constant ≤ 1 then some (.error (.InvalidD d_constant))
  else if is_square_u64 d_constant then some (.error (.PerfectSquare d_constant))
  else
    let a0 := isqrt_u64 d_constant
    (pellLoop d_constant a0 fuel (pellInit a0)).map .ok

/-- The binary-exponentiation `while exp > 0` loop of `pell_solution_k`
(`src/solver.rs` lines 160-173), on accumulator `(x, y)` and base
`(base_x, base_y)`.  `exp` at least halves every iteration, so structural fuel
`exp` reproduces the loop exactly (proved in `pellPowLoop_eq`). -/
def pellPowLoop (dc : Int) : Nat → Nat → Int × Int → Int × Int → Int × Int
  | 0, _, acc, _ => acc
  | fuel + 1, exp, acc, base =>
    if exp = 0 then acc
    else
      let acc' := if exp % 2 = 1 then
        (acc.1 * base.1 + dc * acc.2 * base.2, acc.1 * base.2 + acc.2 * base.1)
        else acc
      let base' := (base.1 * base.1 + dc * base.2 * base.2, 2 * base.1 * base.2)
      pellPowLoop dc fuel (exp / 2) acc' base'

/-- Embedding of `pell_solution_k` from `src/solver.rs`. -/
def pell_solution_k (d_constant : Nat) (x1 y1 : Int) (k : Nat) :
    Except PellError (Int × Int) :=
  if k = 0 then .error (.InvalidK k)
  else if k = 1 then .ok (x1, y1)
  else .ok (pellPowLoop d_constant k k (1, 0) (x1, y1))

/-- Embedding of `verify_pell_solution` from `src/solver.rs`:
`x * x == D * y * y + 1`. -/
def verify_pell_solution (d : Nat) (x y : Int) : Bool :=
  x * x == (d : Int) * y * y + 1

/-- The `for k in 1..=count` collection loop of `pell_solutions`
(`src/solver.rs` lines 244-247), with `?`-propagation of errors. -/
def solutionsList (dc : Nat) (x1 y1 : Int) : Nat → Except PellError (List (Int × Int))
  | 0 => .ok []
  | n + 1 => do
    let xs ← solutionsList dc x1 y1 n
    let p ← pell_solution_k dc x1 y1 (n + 1)
    pure (xs ++ [p])

/-- Embedding of `pell_solutions` from `src/solver.rs`. -/
def pell_solutions (fuel : Nat) (d : Nat) (count : Nat) :
    Option (Except PellError (List (Int × Int))) :=
  if count = 0 then some (.ok [])
  else
    (pell_min_solution fuel d).map fun r => do
      let (x1, y1) ← r
      solutionsList d x1 y1 count

/-- The k-th solution defined by the linear recurrence of the specification
(§4.4): `x_k = x1·x_{k-1} + D·y1·y_{k-1}`, `y_k = x1·y_{k-1} + y1·x_{k-1}`,
seeded by the fundamental solution `(x1, y1)`.  `recSolution n` is the
solution of index `n + 1`. -/
def recSolution (dc : Nat) (x1 y1 : Int) : Nat → Int × Int
  | 0 => (x1, y1)
  | n + 1 =>
    let prev := recSolution dc x1 y1 n
    (x1 * prev.1 + (dc : Int) * y1 * prev.2, x1 * prev.2 + y1 * prev.1)

/-- Modelled from the spec: the resettable lazy solution generator
`PellSolutionIterator` (spec §4.5).  Its implementation is re-exported by
`src/lib.rs` and exercised by `tests/iterator_tests.rs`, but the defining
source is not part of the repository snapshot.  Per the spec it holds the
fundamental solution, a mutable current pair and a 1-indexed position
counter. -/
structure PellSolutionIterator where
  d : Nat
  fund : Int × Int
  current : Int × Int
  k : Nat
  deriving DecidableEq, Repr

namespace PellSolutionIterator

/-- Modelled from the spec: construction for a discriminant `D` computes the
fundamental solution (failing exactly as `minimal_solution` does) and starts
at position 1 pointing at it. -/
def mk_new (fuel d : Nat) : Option (Except PellError PellSolutionIterator) :=
  (pell_min_solution fuel d).map fun r =>
    r.map fun f => { d := d, fund := f, current := f, k := 1 }

/-- Modelled from the spec: `next()` returns the current pair, advances it by
one step of the recurrence of §4.4 and increments the position counter. -/
def next (it : PellSolutionIterator) : (Int × Int) × PellSolutionIterator :=
  let cur := it.current
  let nxt := (it.fund.1 * cur.1 + (it.d : Int) * it.fund.2 * cur.2,
              it.fund.1 * cur.2 + it.fund.2 * cur.1)
  (cur, { it with current := nxt, k := it.k + 1 })

/-- Modelled from the spec: `reset()` rewinds the current pair to the
fundamental solution and the position to 1, touching nothing else. -/
def reset (it : PellSolutionIterator) : PellSolutionIterator :=
  { it with current := it.fund, k := 1 }

/-- Modelled from the spec: `position()` (`current_k` in the tests) returns
the 1-indexed position of the pair the next `next()` call will return. -/
def position (it : PellSolutionIterator) : Nat := it.k

/-- Consuming `n` elements through repeated `next()` calls. -/
def consume : Nat → PellSolutionIterator → List (Int × Int) × PellSolutionIterator
  | 0, it => ([], it)
  | n + 1, it =>
    let (x, it') := it.next
    let (xs, it'') := consume n it'
    (x :: xs, it'')

end PellSolutionIterator

/-! ## The quadratic ring view of the exponentiation loop -/

/-- View a coefficient pair as an element of the quadratic ring `ℤ√d`
(Mathlib's `Zsqrtd`), whose multiplication
`(x_a, y_a)·(x_b, y_b) = (x_a·x_b + d·y_a·y_b, x_a·y_b + y_a·x_b)`
is exactly the ring multiplication used by `pell_solution_k`. -/
def toZ (dc : Int) (p : Int × Int) : Zsqrtd dc := ⟨p.1, p.2⟩

theorem toZ_mul (dc : Int) (a b : Int × Int) :
    toZ dc (a.1 * b.1 + dc * a.2 * b.2, a.1 * b.2 + a.2 * b.1) = toZ dc a * toZ dc b := by
  apply Zsqrtd.ext <;> simp [toZ, Zsqrtd.mul_re, Zsqrtd.mul_im]

theorem toZ_sq (dc : Int) (b : Int × Int) :
    toZ dc (b.1 * b.1 + dc * b.2 * b.2, 2 * b.1 * b.2) = toZ dc b ^ 2 := by
  apply Zsqrtd.ext <;> simp [toZ, sq, Zsqrtd.mul_re, Zsqrtd.mul_im] <;> ring

theorem toZ_inj (dc : Int) {p : Int × Int} {z : Zsqrtd dc} (h : toZ dc p = z) :
    p = (z.re, z.im) := by
  cases p
  cases z
  simp only [toZ, Zsqrtd.mk.injEq] at h
  simp [h.1, h.2]

/-- The binary-exponentiation loop of `pell_solution_k` computes
`acc * base ^ exp` in `ℤ√d`, for any fuel at least `exp`. -/
theorem pellPowLoop_toZ (dc : Int) : ∀ fuel exp : Nat, exp ≤ fuel → ∀ acc base : Int × Int,
    toZ dc (pellPowLoop dc fuel exp acc base) = toZ dc acc * toZ dc base ^ exp := by
  intro fuel
  induction fuel with
  | zero =>
    intro exp hexp acc base
    interval_cases exp
    simp [pellPowLoop]
  | succ fuel ih =>
    intro exp hexp acc base
    by_cases h0 : exp = 0
    · subst h0; simp [pellPowLoop]
    · rw [pellPowLoop, if_neg h0]
      have hdiv : exp / 2 ≤ fuel := by
        have := Nat.div_lt_self (Nat.pos_of_ne_zero h0) (by norm_num : 1 < 2)
        omega
      rw [ih _ hdiv]
      by_cases hpar : exp % 2 = 1
      · rw [if_pos hpar, toZ_mul, toZ_sq, ← pow_mul, mul_assoc, ← pow_succ']
        congr 2
        omega
      · rw [if_neg hpar, toZ_sq, ← pow_mul]
        congr 2
        omega

/-- `pell_solution_k` returns `Ok` with the coefficients of
`(x1 + y1·√D) ^ k` in `ℤ√D`, for every `k ≥ 1`. -/
theorem pell_solution_k_eq_pow (dc : Nat) (x1 y1 : Int) (k : Nat) (hk : 1 ≤ k) :
    pell_solution_k dc x1 y1 k =
      .ok ((((⟨x1, y1⟩ : Zsqrtd (dc : Int)) ^ k).re, ((⟨x1, y1⟩ : Zsqrtd (dc : Int)) ^ k).im)) := by
  rcases Nat.lt_or_ge k 2 with hk2 | hk2
  · interval_cases k
    simp [pell_solution_k, pow_one]
  · have h0 : ¬(k = 0) := by omega
    have h1 : ¬(k = 1) := by omega
    rw [pell_solution_k, if_neg h0, if_neg h1]
    have := pellPowLoop_toZ (dc : Int) k k le_rfl (1, 0) (x1, y1)
    have hone : toZ (dc : Int) (1, 0) = 1 := by
      apply Zsqrtd.ext <;> simp [toZ]
    rw [hone, one_mul] at this
    rw [toZ_inj (dc : Int) this]
    rfl

/-- The specification's linear recurrence also computes powers in `ℤ√D`:
`recSolution n` is `(x1 + y1·√D) ^ (n + 1)`. -/
theorem recSolution_toZ (dc : Nat) (x1 y1 : Int) : ∀ n : Nat,
    toZ (dc : Int) (recSolution dc x1 y1 n) = toZ (dc : Int) (x1, y1) ^ (n + 1) := by
  intro n
  induction n with
  | zero => rw [pow_one]; rfl
  | succ n ih =>
    rw [recSolution]
    have := toZ_mul (dc : Int) (x1, y1) (recSolution dc x1 y1 n)
    simp only at this
    rw [this, ih, ← pow_succ']

theorem recSolution_components (dc : Nat) (x1 y1 : Int) (n : Nat) :
    recSolution dc x1 y1 n =
      (((⟨x1, y1⟩ : Zsqrtd (dc : Int)) ^ (n + 1)).re,
        ((⟨x1, y1⟩ : Zsqrtd (dc : Int)) ^ (n + 1)).im) :=
  toZ_inj (dc : Int) (recSolution_toZ dc x1 y1 n)

/-- The collection loop of `pell_solutions` never fails and produces exactly
the recurrence values of indices `1..count`. -/
theorem solutionsList_eq (dc : Nat) (x1 y1 : Int) : ∀ count : Nat,
    solutionsList dc x1 y1 count = .ok ((List.range count).map (recSolution dc x1 y1)) := by
  intro count
  induction count with
  | zero => rfl
  | succ n ih =>
    rw [solutionsList, ih, pell_solution_k_eq_pow dc x1 y1 (n + 1) (by omega),
      List.range_succ, List.map_append]
    simp only [List.map_cons, List.map_nil, recSolution_components]
    rfl

/-- C2: for every u64 `D`, arbitrary pair `(x1, y1)` and every `k ≥ 1`,
`pell_solution_k` returns `Ok` with exactly the coefficients of
`(x1 + y1·√D) ^ k` in the ring `ℤ√D`; in particular `k = 1` returns
`(x1, y1)` itself and no validity check on `D` or the pair is performed. -/
theorem claim_C2 (dc : Nat) (x1 y1 : Int) (k : Nat) (hk : 1 ≤ k) :
    pell_solution_k dc x1 y1 k =
      .ok ((((⟨x1, y1⟩ : Zsqrtd (dc : Int)) ^ k).re, ((⟨x1, y1⟩ : Zsqrtd (dc : Int)) ^ k).im)) ∧
    pell_solution_k dc x1 y1 1 = .ok (x1, y1) := by
  refine ⟨pell_solution_k_eq_pow dc x1 y1 k hk, rfl⟩

/-- C2 witness: the theorem instantiated at `D = 2`, `(x1, y1) = (3, 2)`,
`k = 2`. -/
theorem claim_C2_witness :
    1 ≤ 2 ∧
    (pell_solution_k 2 3 2 2 =
      .ok ((((⟨3, 2⟩ : Zsqrtd ((2 : Nat) : Int)) ^ 2).re,
        ((⟨3, 2⟩ : Zsqrtd ((2 : Nat) : Int)) ^ 2).im)) ∧
      pell_solution_k 2 3 2 1 = .ok (3, 2)) :=
  ⟨by norm_num, claim_C2 2 3 2 2 (by norm_num)⟩

/-- C5: for a `D` whose fundamental solution the solver returns, and any
`count ≥ 1`, `pell_solutions` returns the first `count` solutions in order of
`k`; the `k`-th element equals both `pell_solution_k D x1 y1 k` and the value
of the specification's linear recurrence seeded by `(x1, y1)`. -/
theorem claim_C5 (fuel d count : Nat) (x1 y1 : Int)
    (h : pell_min_solution fuel d = some (.ok (x1, y1))) (hc : 1 ≤ count) :
    pell_solutions fuel d count = some (.ok ((List.range count).map (recSolution d x1 y1))) ∧
    ((List.range count).map (recSolution d x1 y1)).length = count ∧
    ∀ k, 1 ≤ k → k ≤ count →
      pell_solution_k d x1 y1 k = .ok (recSolution d x1 y1 (k - 1)) ∧
      ((List.range count).map (recSolution d x1 y1))[k - 1]? =
        some (recSolution d x1 y1 (k - 1)) := by
  refine ⟨?_, by simp, ?_⟩
  · have hcount : ¬(count = 0) := by omega
    rw [pell_solutions, if_neg hcount, h]
    simp only [Option.map, solutionsList_eq]
    rfl
  · intro k hk1 hk2
    constructor
    · have hk : k - 1 + 1 = k := by omega
      rw [pell_solution_k_eq_pow d x1 y1 k hk1, recSolution_components, hk]
    · rw [List.getElem?_map, List.getElem?_range (by omega)]
      rfl

set_option maxRecDepth 40000 in
/-- C5 witness: `D = 2`, fundamental solution `(3, 2)`, `count = 2`,
checked at `k = 2`. -/
theorem claim_C5_witness :
    pell_min_solution 2 2 = some (.ok (3, 2)) ∧ 1 ≤ 2 ∧
    (pell_solutions 2 2 2 = some (.ok ((List.range 2).map (recSolution 2 3 2))) ∧
      ((List.range 2).map (recSolution 2 3 2)).length = 2 ∧
      ∀ k, 1 ≤ k → k ≤ 2 →
        pell_solution_k 2 3 2 k = .ok (recSolution 2 3 2 (k - 1)) ∧
        ((List.range 2).map (recSolution 2 3 2))[k - 1]? =
          some (recSolution 2 3 2 (k - 1))) :=
  ⟨by rfl, by norm_num, claim_C5 2 2 2 3 2 (by rfl) (by norm_num)⟩

/-- C9: for every u64 `D` — valid or not — and every fuel,
`pell_solutions D 0` returns `Ok` with the empty list, before validating `D`
or computing the fundamental solution. -/
theorem claim_C9 (fuel d : Nat) : pell_solutions fuel d 0 = some (.ok []) := by
  simp [pell_solutions]

set_option maxRecDepth 100000 in
/-- C8: the concrete scenarios: `minimal_solution(2) = (3, 2)`; from it
`solution_at` with `k = 2` gives `(17, 12)` and `k = 3` gives `(99, 70)`;
`minimal_solution(991)` returns the 30- and 29-digit pair; and
`solutions(2, 3)` is exactly `[(3,2), (17,12), (99,70)]`.  (`pell_min_solution`
is fueled in this embedding; fuel 2 suffices for `D = 2` and fuel 60 for
`D = 991`.) -/
theorem claim_C8 :
    pell_min_solution 2 2 = some (.ok (3, 2)) ∧
    pell_solution_k 2 3 2 2 = .ok (17, 12) ∧
    pell_solution_k 2 3 2 3 = .ok (99, 70) ∧
    pell_min_solution 60 991 =
      some (.ok (379516400906811930638014896080, 12055735790331359447442538767)) ∧
    pell_solutions 10 2 3 = some (.ok [(3, 2), (17, 12), (99, 70)]) :=
  ⟨rfl, rfl, rfl, rfl, rfl⟩

namespace PellSolutionIterator

theorem consume_fund (n : Nat) : ∀ it : PellSolutionIterator,
    (consume n it).2.fund = it.fund ∧ (consume n it).2.d = it.d := by
  induction n with
  | zero => intro it; exact ⟨rfl, rfl⟩
  | succ n ih =>
    intro it
    rw [consume]
    exact ih ({ it with current := _, k := it.k + 1 })

end PellSolutionIterator

/-- C10: idempotent reset of the solution-sequence generator: consuming `n`
elements, calling `reset()` and consuming `n` elements again yields the same
`n` pairs, with the position counter back at 1 immediately after `reset()`
and the current pair rewound to the fundamental solution. -/
theorem claim_C10 (fuel d n : Nat) (it : PellSolutionIterator)
    (h : PellSolutionIterator.mk_new fuel d = some (.ok it)) :
    ((PellSolutionIterator.consume n it).2.reset).position = 1 ∧
    ((PellSolutionIterator.consume n it).2.reset).current = it.fund ∧
    (PellSolutionIterator.consume n ((PellSolutionIterator.consume n it).2.reset)).1 =
      (PellSolutionIterator.consume n it).1 := by
  obtain ⟨f, hf, rfl⟩ :
      ∃ f, pell_min_solution fuel d = some (.ok f) ∧
        it = { d := d, fund := f, current := f, k := 1 } := by
    rw [PellSolutionIterator.mk_new] at h
    rcases hm : pell_min_solution fuel d with _ | r
    · rw [hm] at h; exact absurd h (by simp)
    · rw [hm] at h
      rcases r with e | f
      · simp [Except.map] at h
      · refine ⟨f, rfl, ?_⟩
        simp only [Option.map, Except.map, Option.some.injEq, Except.ok.injEq] at h
        exact h.symm
  have hkey := PellSolutionIterator.consume_fund n
    ({ d := d, fund := f, current := f, k := 1 } : PellSolutionIterator)
  have hreset :
      ((PellSolutionIterator.consume n
          ({ d := d, fund := f, current := f, k := 1 } : PellSolutionIterator)).2.reset) =
        { d := d, fund := f, current := f, k := 1 } := by
    rw [PellSolutionIterator.reset, hkey.1, hkey.2]
  rw [hreset]
  exact ⟨rfl, rfl, rfl⟩

set_option maxRecDepth 40000 in
/-- C10 witness: `D = 5`, fuel 3, consuming `n = 2` elements. -/
theorem claim_C10_witness :
    PellSolutionIterator.mk_new 3 5 =
      some (.ok { d := 5, fund := (9, 4), current := (9, 4), k := 1 }) ∧
    ((PellSolutionIterator.consume 2
        ({ d := 5, fund := (9, 4), current := (9, 4), k := 1 } : PellSolutionIterator)).2.reset
        ).position = 1 ∧
    ((PellSolutionIterator.consume 2
        ({ d := 5, fund := (9, 4), current := (9, 4), k := 1 } : PellSolutionIterator)).2.reset
        ).current = (9, 4) ∧
    (PellSolutionIterator.consume 2
        ((PellSolutionIterator.consume 2
          ({ d := 5, fund := (9, 4), current := (9, 4), k := 1 } : PellSolutionIterator)).2.reset
          )).1 =
      (PellSolutionIterator.consume 2
        ({ d := 5, fund := (9, 4), current := (9, 4), k := 1 } : PellSolutionIterator)).1 :=
  ⟨by rfl, claim_C10 3 5 2 _ (by rfl)⟩

/-! ## Correctness of the integer square root -/

/-- One idealized Newton step from any positive `a` is at least `⌊√n⌋`
(integer AM-GM). -/
theorem sqrt_le_newton (n a : Nat) (ha : 1 ≤ a) : Nat.sqrt n ≤ (a + n / a) / 2 := by
  set r := Nat.sqrt n with hrdef
  set q := n / a with hqdef
  rw [Nat.le_div_iff_mul_le (by norm_num : 0 < 2)]
  by_contra hcon
  push_neg at hcon
  have hr : r * r ≤ n := Nat.sqrt_le n
  have hda : a * q + n % a = n := Nat.div_add_mod n a
  have hma : n % a < a := Nat.mod_lt n (by omega)
  have h1 : (n : Int) < a * q + a := by
    have : n < a * q + a := by omega
    exact_mod_cast this
  have hr' : (r : Int) * r ≤ n := by exact_mod_cast hr
  have h3 : (a : Int) + q + 1 ≤ 2 * r := by
    have : a + q + 1 ≤ 2 * r := by omega
    exact_mod_cast this
  have h4 : ((a : Int) + q + 1) * ((a : Int) + q + 1) ≤ (2 * r) * (2 * r) := by
    have hnn : (0 : Int) ≤ (a : Int) + q + 1 := by positivity
    exact mul_le_mul h3 h3 hnn (by positivity)
  nlinarith [sq_nonneg ((a : Int) - q - 1)]

theorem sqrt_lt_two_pow_32 {n : Nat} (h64 : n < 2 ^ 64) : Nat.sqrt n ≤ 2 ^ 32 - 1 := by
  have : Nat.sqrt n < 2 ^ 32 := Nat.sqrt_lt.mpr (by omega)
  omega

/-- In the relevant range the `u64` addition of the Newton step cannot wrap. -/
theorem newton_step_eq {n x : Nat} (hx : 3 ≤ x) (hx2 : x ≤ 2 ^ 32) (hn : n < 2 ^ 64) :
    wrap64 (x + n / x) / 2 = (x + n / x) / 2 := by
  have hdl : n / x ≤ n / 3 := Nat.div_le_div_left hx (by norm_num)
  rw [wrap64, Nat.mod_eq_of_lt (by omega)]

theorem newtonLoop_le (n : Nat) : ∀ fuel x, newtonLoop n fuel x ≤ x := by
  intro fuel
  induction fuel with
  | zero => intro x; exact le_rfl
  | succ fuel ih =>
    intro x
    rw [newtonLoop]
    split
    · exact le_rfl
    · next h => exact le_trans (ih _) (by omega)

theorem newtonLoop_lb {n : Nat} (h16 : 16 ≤ n) (h64 : n < 2 ^ 64) :
    ∀ fuel x, 3 ≤ x → x ≤ 2 ^ 32 → Nat.sqrt n - 1 ≤ x →
      Nat.sqrt n - 1 ≤ newtonLoop n fuel x := by
  have hr4 : 4 ≤ Nat.sqrt n := Nat.le_sqrt.mpr (by omega)
  intro fuel
  induction fuel with
  | zero => intro x _ _ hx3; exact hx3
  | succ fuel ih =>
    intro x hx1 hx2 hx3
    rw [newtonLoop]
    split
    · exact hx3
    · next h =>
      push_neg at h
      have hstep : wrap64 (x + n / x) / 2 = (x + n / x) / 2 := newton_step_eq hx1 hx2 h64
      have hge : Nat.sqrt n ≤ wrap64 (x + n / x) / 2 := by
        rw [hstep]; exact sqrt_le_newton n x (by omega)
      exact ih _ (by omega) (by omega) (by omega)

theorem newtonLoop_ub {n : Nat} (h16 : 16 ≤ n) (h64 : n < 2 ^ 64) (fuel : Nat) :
    ∀ x, 3 ≤ x → x ≤ 2 ^ 32 → newtonLoop n (fuel + 1) x ≤ 2 ^ 32 - 1 := by
  intro x hx1 hx2
  rw [newtonLoop]
  split
  · next h =>
    -- a break at the very first test forces `x ≤ 2^32 - 1`
    by_contra hcon
    have hxeq : x = 2 ^ 32 := by omega
    have hstep : wrap64 (x + n / x) / 2 = (x + n / x) / 2 := newton_step_eq hx1 hx2 h64
    have hnd : n / x ≤ 2 ^ 32 - 1 := by
      subst hxeq
      have : n / 2 ^ 32 ≤ (2 ^ 64 - 1) / 2 ^ 32 := Nat.div_le_div_right (by omega)
      omega
    rw [hstep] at h
    omega
  · next h =>
    push_neg at h
    exact le_trans (newtonLoop_le n fuel _) (by omega)

theorem decLoop_id {n : Nat} : ∀ fuel x, x ≤ Nat.sqrt n → x ≤ 2 ^ 32 - 1 →
    decLoop n fuel x = x := by
  intro fuel x hx1 hx2
  cases fuel with
  | zero => rfl
  | succ fuel =>
    rw [decLoop, if_neg]
    have hxx : x * x ≤ n :=
      le_trans (Nat.mul_le_mul hx1 hx1) (Nat.sqrt_le n)
    have hlt : x * x < 2 ^ 64 := by
      have := Nat.mul_le_mul hx2 hx2
      omega
    rw [wrap64, Nat.mod_eq_of_lt hlt]
    omega

theorem decLoop_eq_sqrt {n : Nat} : ∀ fuel x, Nat.sqrt n ≤ x → x ≤ 2 ^ 32 - 1 →
    x - Nat.sqrt n < fuel → decLoop n fuel x = Nat.sqrt n := by
  intro fuel
  induction fuel with
  | zero => intro x _ _ h; omega
  | succ fuel ih =>
    intro x hx1 hx2 hx3
    rcases Nat.eq_or_lt_of_le hx1 with heq | hlt
    · rw [← heq]
      exact heq ▸ decLoop_id (fuel + 1) x (le_of_eq heq.symm) hx2
    · rw [decLoop, if_pos]
      · exact ih (x - 1) (by omega) (by omega) (by omega)
      · have hsq : n < (Nat.sqrt n + 1) * (Nat.sqrt n + 1) := Nat.lt_succ_sqrt n
        have hxx : (Nat.sqrt n + 1) * (Nat.sqrt n + 1) ≤ x * x :=
          Nat.mul_le_mul (by omega) (by omega)
        have hlt64 : x * x < 2 ^ 64 := by
          have := Nat.mul_le_mul hx2 hx2
          omega
        rw [wrap64, Nat.mod_eq_of_lt hlt64]
        omega

/-- The integer refinement of `isqrt_u64` is exact for every `n < 2^64` and
every initial guess in the interval `[⌊√n⌋ - 1, 2^32]` containing the
source's floating-point estimate. -/
theorem isqrt_core_eq {n : Nat} (g : Nat) (h64 : n < 2 ^ 64)
    (hg1 : Nat.sqrt n - 1 ≤ g) (hg2 : g ≤ 2 ^ 32) : isqrt_core n g = Nat.sqrt n := by
  rw [isqrt_core]
  by_cases h0 : n = 0
  · rw [if_pos h0, h0, Nat.sqrt_zero]
  rw [if_neg h0]
  by_cases h3 : n ≤ 3
  · rw [if_pos h3]
    have l1 : 1 ≤ Nat.sqrt n := Nat.le_sqrt.mpr (by omega)
    have l2 : Nat.sqrt n < 2 := Nat.sqrt_lt.mpr (by omega)
    omega
  rw [if_neg h3]
  by_cases h8 : n ≤ 8
  · rw [if_pos h8]
    have l1 : 2 ≤ Nat.sqrt n := Nat.le_sqrt.mpr (by omega)
    have l2 : Nat.sqrt n < 3 := Nat.sqrt_lt.mpr (by omega)
    omega
  rw [if_neg h8]
  by_cases h15 : n ≤ 15
  · rw [if_pos h15]
    have l1 : 3 ≤ Nat.sqrt n := Nat.le_sqrt.mpr (by omega)
    have l2 : Nat.sqrt n < 4 := Nat.sqrt_lt.mpr (by omega)
    omega
  rw [if_neg h15]
  have h16 : 16 ≤ n := by omega
  have hr4 : 4 ≤ Nat.sqrt n := Nat.le_sqrt.mpr (by omega)
  have hr32 : Nat.sqrt n ≤ 2 ^ 32 - 1 := sqrt_lt_two_pow_32 h64
  have hg0 : ¬(g = 0) := by omega
  simp only [if_neg hg0]
  set v := newtonLoop n 64 g with hv
  have hvlb : Nat.sqrt n - 1 ≤ v := newtonLoop_lb h16 h64 64 g (by omega) hg2 hg1
  have hvub : v ≤ 2 ^ 32 - 1 := newtonLoop_ub h16 h64 63 g (by omega) hg2
  rcases Nat.lt_or_ge v (Nat.sqrt n) with hcase | hcase
  · -- undershoot by exactly one: the final `+1` check repairs it
    have hveq : v = Nat.sqrt n - 1 := by omega
    rw [decLoop_id (v + 1) v (by omega) hvub, incCheck, if_pos]
    · omega
    · refine ⟨by omega, ?_, ?_⟩
      · have : v + 1 ≤ 2 ^ 32 - 1 := by omega
        have := Nat.mul_le_mul this this
        omega
      · have : (v + 1) * (v + 1) = Nat.sqrt n * Nat.sqrt n := by
          have : v + 1 = Nat.sqrt n := by omega
          rw [this]
        rw [this]
        exact Nat.sqrt_le n
  · -- at or above the root: the downward loop lands exactly on it
    rw [decLoop_eq_sqrt (v + 1) v hcase hvub (by omega), incCheck, if_neg]
    intro ⟨_, _, hc⟩
    have hlt : n < (Nat.sqrt n + 1) * (Nat.sqrt n + 1) := by
      simpa [Nat.succ_eq_add_one] using Nat.lt_succ_sqrt n
    omega

theorem fguess_ge (n : Nat) : Nat.sqrt n ≤ fguess n :=
  sqrt_le_newton n (2 ^ 32) (by norm_num)

theorem fguess_le {n : Nat} (h64 : n < 2 ^ 64) : fguess n ≤ 2 ^ 32 := by
  rw [fguess]
  omega

/-- With the modeled guess, `isqrt_u64` is `Nat.sqrt`. -/
theorem isqrt_u64_eq {n : Nat} (h64 : n < 2 ^ 64) : isqrt_u64 n = Nat.sqrt n :=
  isqrt_core_eq (fguess n) h64 (le_trans (by omega) (fguess_ge n)) (fguess_le h64)

/-- `is_square_u64` decides squareness for every `n < 2^64`. -/
theorem is_square_u64_iff {n : Nat} (h64 : n < 2 ^ 64) :
    is_square_u64 n = true ↔ Nat.sqrt n * Nat.sqrt n = n := by
  rw [is_square_u64]
  simp only [isqrt_u64_eq h64]
  have hr32 : Nat.sqrt n ≤ 2 ^ 32 - 1 := sqrt_lt_two_pow_32 h64
  have hlt : Nat.sqrt n * Nat.sqrt n < 2 ^ 64 := by
    have := Nat.mul_le_mul hr32 hr32
    omega
  rw [wrap64, Nat.mod_eq_of_lt hlt, beq_iff_eq]

theorem is_square_u64_iff_exists {n : Nat} (h64 : n < 2 ^ 64) :
    is_square_u64 n = true ↔ ∃ m, m * m = n := by
  rw [is_square_u64_iff h64, ← Nat.exists_mul_self]

/-- C4: for every `n < 2^64` and every initial guess `g` in the interval
`[⌊√n⌋ - 1, 2^32]` (which provably contains the source's floating-point
estimate `(n as f64).sqrt() as u64`), `isqrt_u64`'s integer refinement
returns the unique `r` with `r² ≤ n < (r+1)²`, and `is_square_u64 n` is true
iff `isqrt_u64 n * isqrt_u64 n = n`. -/
theorem claim_C4 (n g : Nat) (h64 : n < 2 ^ 64)
    (hg1 : Nat.sqrt n - 1 ≤ g) (hg2 : g ≤ 2 ^ 32) :
    isqrt_core n g = Nat.sqrt n ∧
    isqrt_core n g * isqrt_core n g ≤ n ∧
    n < (isqrt_core n g + 1) * (isqrt_core n g + 1) ∧
    (is_square_u64 n = true ↔ isqrt_u64 n * isqrt_u64 n = n) := by
  have he := isqrt_core_eq g h64 hg1 hg2
  refine ⟨he, ?_, ?_, ?_⟩
  · rw [he]; exact Nat.sqrt_le n
  · rw [he]; exact Nat.lt_succ_sqrt n
  · rw [is_square_u64_iff h64, isqrt_u64_eq h64]

/-- C4 witness: `n = 17`, guess `g = 4`. -/
theorem claim_C4_witness :
    (17 < 2 ^ 64 ∧ Nat.sqrt 17 - 1 ≤ 4 ∧ 4 ≤ 2 ^ 32) ∧
    (isqrt_core 17 4 = Nat.sqrt 17 ∧
      isqrt_core 17 4 * isqrt_core 17 4 ≤ 17 ∧
      17 < (isqrt_core 17 4 + 1) * (isqrt_core 17 4 + 1) ∧
      (is_square_u64 17 = true ↔ isqrt_u64 17 * isqrt_u64 17 = 17)) := by
  have hs : Nat.sqrt 17 = 4 := by
    have h : (17 : Nat) = 4 * 4 + 1 := by norm_num
    rw [h, Nat.sqrt_add_eq 4 (by norm_num)]
  exact ⟨⟨by norm_num, by rw [hs]; norm_num, by norm_num⟩,
    claim_C4 17 4 (by norm_num) (by rw [hs]; norm_num) (by norm_num)⟩

/-! ## The error taxonomy -/

/-- C6: errors are raised exactly as the taxonomy specifies, before any
iteration: `pell_min_solution D` fails with `InvalidD D` iff `D ≤ 1` and with
`PerfectSquare D` iff `D > 1` and `D` is a perfect square (independently of
fuel); `pell_solution_k` fails iff `k = 0`, with `InvalidK`, and returns `Ok`
for every `k ≥ 1` regardless of the other arguments. -/
theorem claim_C6 (d fuel : Nat) (h64 : d < 2 ^ 64) :
    (pell_min_solution fuel d = some (.error (.InvalidD d)) ↔ d ≤ 1) ∧
    (pell_min_solution fuel d = some (.error (.PerfectSquare d)) ↔
      1 < d ∧ ∃ r, r * r = d) ∧
    ∀ (x1 y1 : Int) (k : Nat),
      (pell_solution_k d x1 y1 k = .error (.InvalidK k) ↔ k = 0) ∧
      (1 ≤ k → ∃ v, pell_solution_k d x1 y1 k = .ok v) := by
  have hok : ∀ e : PellError, ¬((pellLoop (d : Int) (isqrt_u64 d : Int) fuel
      (pellInit (isqrt_u64 d : Int))).map Except.ok = some (.error e)) := by
    intro e h
    rcases hm : pellLoop (d : Int) (isqrt_u64 d : Int) fuel (pellInit (isqrt_u64 d : Int)) with
      _ | v
    · rw [hm] at h; simp at h
    · rw [hm] at h; simp at h
  refine ⟨?_, ?_, ?_⟩
  · constructor
    · intro h
      by_contra hd
      rw [pell_min_solution, if_neg hd] at h
      by_cases hsq : is_square_u64 d
      · rw [if_pos hsq] at h
        simp at h
      · rw [if_neg hsq] at h
        exact hok _ h
    · intro h
      rw [pell_min_solution, if_pos h]
  · constructor
    · intro h
      by_cases hd : d ≤ 1
      · rw [pell_min_solution, if_pos hd] at h
        simp at h
      · rw [pell_min_solution, if_neg hd] at h
        by_cases hsq : is_square_u64 d
        · exact ⟨by omega, (is_square_u64_iff_exists h64).mp hsq⟩
        · rw [if_neg hsq] at h
          exact absurd h (hok _)
    · intro ⟨hd, hsq⟩
      have hd' : ¬(d ≤ 1) := by omega
      rw [pell_min_solution, if_neg hd', if_pos ((is_square_u64_iff_exists h64).mpr hsq)]
  · intro x1 y1 k
    constructor
    · constructor
      · intro h
        by_contra hk
        rw [pell_solution_k, if_neg hk] at h
        by_cases h1 : k = 1
        · rw [if_pos h1] at h; simp at h
        · rw [if_neg h1] at h; simp at h
      · intro h
        rw [pell_solution_k, if_pos h]
    · intro hk
      rcases Nat.lt_or_ge k 2 with h2 | h2
      · have h1 : k = 1 := by omega
        exact ⟨(x1, y1), by rw [pell_solution_k, if_neg (by omega), if_pos h1]⟩
      · exact ⟨_, by rw [pell_solution_k, if_neg (by omega), if_neg (by omega)]⟩

/-- C6 witness: the instances named by the claim: `D = 0, 1` give `InvalidD`,
`D = 4, 9, 16` give `PerfectSquare`, and `solution_at(2, 3, 2, 0)` gives
`InvalidK`. -/
theorem claim_C6_witness :
    (0 < 2 ^ 64 ∧ (pell_min_solution 1 0 = some (.error (.InvalidD 0)) ↔ (0 : Nat) ≤ 1)) ∧
    pell_min_solution 1 0 = some (.error (.InvalidD 0)) ∧
    pell_min_solution 1 1 = some (.error (.InvalidD 1)) ∧
    pell_min_solution 1 4 = some (.error (.PerfectSquare 4)) ∧
    pell_min_solution 1 9 = some (.error (.PerfectSquare 9)) ∧
    pell_min_solution 1 16 = some (.error (.PerfectSquare 16)) ∧
    pell_solution_k 2 3 2 0 = .error (.InvalidK 0) :=
  ⟨⟨by norm_num, (claim_C6 0 1 (by norm_num)).1⟩,
    ((claim_C6 0 1 (by norm_num)).1).mpr (by norm_num),
    ((claim_C6 1 1 (by norm_num)).1).mpr (by norm_num),
    ((claim_C6 4 1 (by norm_num)).2.1).mpr ⟨by norm_num, 2, by norm_num⟩,
    ((claim_C6 9 1 (by norm_num)).2.1).mpr ⟨by norm_num, 3, by norm_num⟩,
    ((claim_C6 16 1 (by norm_num)).2.1).mpr ⟨by norm_num, 4, by norm_num⟩,
    (((claim_C6 2 1 (by norm_num)).2.2 3 2 0).1).mpr rfl⟩

/-! ## The ideal (unwrapped) surd recurrence

The continued-fraction state `(m, d, a)` of `pell_min_solution`, computed in
exact integer arithmetic.  The correspondence with the wrapped `i128` loop
state is established afterwards. -/

/-- One exact step of the surd recurrence (`src/solver.rs` lines 76-78 without
the `i128` wrap-around): `m' = d·a − m`, `d' = (D − m'²) / d`,
`a' = (a0 + m') / d'`, with Rust's truncating division. -/
def surdStep (dc : Nat) (s : Int × Int × Int) : Int × Int × Int :=
  let m' := s.2.1 * s.2.2 - s.1
  let d' := ((dc : Int) - m' * m').tdiv s.2.1
  let a' := ((Nat.sqrt dc : Int) + m').tdiv d'
  (m', d', a')

/-- The exact surd state after `k` iterations, starting from
`(m, d, a) = (0, 1, ⌊√D⌋)`. -/
def surd (dc : Nat) : Nat → Int × Int × Int
  | 0 => (0, 1, (Nat.sqrt dc : Int))
  | k + 1 => surdStep dc (surd dc k)

/-- The `m` component of the exact surd state. -/
def mS (dc k : Nat) : Int := (surd dc k).1

/-- The `d` component of the exact surd state. -/
def dS (dc k : Nat) : Int := (surd dc k).2.1

/-- The `a` (partial quotient) component of the exact surd state. -/
def aS (dc k : Nat) : Int := (surd dc k).2.2

theorem mS_zero (dc : Nat) : mS dc 0 = 0 := rfl

theorem dS_zero (dc : Nat) : dS dc 0 = 1 := rfl

theorem aS_zero (dc : Nat) : aS dc 0 = (Nat.sqrt dc : Int) := rfl

theorem mS_succ (dc k : Nat) : mS dc (k + 1) = dS dc k * aS dc k - mS dc k := rfl

theorem dS_succ (dc k : Nat) :
    dS dc (k + 1) = ((dc : Int) - mS dc (k + 1) * mS dc (k + 1)).tdiv (dS dc k) := rfl

theorem aS_succ (dc k : Nat) :
    aS dc (k + 1) = ((Nat.sqrt dc : Int) + mS dc (k + 1)).tdiv (dS dc (k + 1)) := rfl

/-- The numerator of each `d`-update is divisible by the divisor: the
truncating division in the source is exact.  `surd_exact` is the product
form. -/
theorem dS_dvd (dc : Nat) : ∀ k, dS dc k ∣ ((dc : Int) - mS dc (k + 1) * mS dc (k + 1)) := by
  intro k
  induction k with
  | zero => rw [dS_zero]; exact one_dvd _
  | succ k ih =>
    have ek : dS dc k * dS dc (k + 1) = (dc : Int) - mS dc (k + 1) * mS dc (k + 1) := by
      rw [dS_succ]
      exact Int.mul_tdiv_cancel' ih
    refine ⟨dS dc k + 2 * aS dc (k + 1) * mS dc (k + 1) - dS dc (k + 1) * aS dc (k + 1) ^ 2, ?_⟩
    rw [mS_succ dc (k + 1)]
    linear_combination -ek

/-- Exactness identity `d_k · d_{k+1} = D − m_{k+1}²`. -/
theorem surd_exact (dc : Nat) (k : Nat) :
    dS dc k * dS dc (k + 1) = (dc : Int) - mS dc (k + 1) * mS dc (k + 1) := by
  rw [dS_succ]
  exact Int.mul_tdiv_cancel' (dS_dvd dc k)

/-- For a non-square `D`, no integer squares to `D`. -/
theorem sub_sq_ne_zero {dc : Nat} (hns : ¬∃ r : Nat, r * r = dc) (M : Int) :
    (dc : Int) - M * M ≠ 0 := by
  intro h
  refine hns ⟨M.natAbs, ?_⟩
  have habs : ((M.natAbs * M.natAbs : Nat) : Int) = ((dc : Nat) : Int) := by
    rw [Int.natAbs_mul_self]
    omega
  exact_mod_cast habs

/-- All the `d_k` are nonzero (for non-square `D`). -/
theorem dS_ne_zero {dc : Nat} (hns : ¬∃ r : Nat, r * r = dc) : ∀ k, dS dc k ≠ 0 := by
  intro k
  cases k with
  | zero => rw [dS_zero]; norm_num
  | succ k =>
    intro h
    have := surd_exact dc k
    rw [h, mul_zero] at this
    exact sub_sq_ne_zero hns (mS dc (k + 1)) this.symm

/-- Cofactor form of the `d`-recurrence, used by the convergent identity. -/
theorem dS_succ_succ {dc : Nat} (hns : ¬∃ r : Nat, r * r = dc) (k : Nat) :
    dS dc (k + 2) = dS dc k + 2 * aS dc (k + 1) * mS dc (k + 1) -
      dS dc (k + 1) * aS dc (k + 1) ^ 2 := by
  have hnum : (dc : Int) - mS dc (k + 2) * mS dc (k + 2) =
      dS dc (k + 1) * (dS dc k + 2 * aS dc (k + 1) * mS dc (k + 1) -
        dS dc (k + 1) * aS dc (k + 1) ^ 2) := by
    rw [mS_succ dc (k + 1)]
    linear_combination -(surd_exact dc k)
  rw [dS_succ, hnum]
  exact Int.mul_tdiv_cancel_left _ (dS_ne_zero hns (k + 1))

/-! ## The real quadratic irrational attached to the surd state -/

/-- The complete quotient `α_k = (√D + m_k)/d_k` of the continued fraction of
`√D`.  (Proof device only — not part of the program embedding.) -/
noncomputable def alphaS (dc k : Nat) : ℝ :=
  (Real.sqrt dc + (mS dc k : ℝ)) / (dS dc k : ℝ)

/-- The algebraic conjugate `(−√D + m_k)/d_k` of `α_k`. -/
noncomputable def betaS (dc k : Nat) : ℝ :=
  (-Real.sqrt dc + (mS dc k : ℝ)) / (dS dc k : ℝ)

/-- A complete quotient is *reduced* when `α > 1` and `−1 < ᾱ < 0`. -/
def Reduced (dc k : Nat) : Prop :=
  1 < alphaS dc k ∧ -1 < betaS dc k ∧ betaS dc k < 0

theorem one_lt_sqrtD {dc : Nat} (hd : 1 < dc) : 1 < Real.sqrt dc := by
  rw [show (1 : ℝ) = Real.sqrt 1 by rw [Real.sqrt_one]]
  exact Real.sqrt_lt_sqrt (by norm_num) (by exact_mod_cast hd)

theorem sqrtD_pos {dc : Nat} (hd : 1 < dc) : 0 < Real.sqrt dc :=
  lt_trans one_pos (one_lt_sqrtD hd)

theorem a0_sq_lt {dc : Nat} (hns : ¬∃ r : Nat, r * r = dc) :
    Nat.sqrt dc * Nat.sqrt dc < dc := by
  rcases Nat.lt_or_ge (Nat.sqrt dc * Nat.sqrt dc) dc with h | h
  · exact h
  · exact absurd ⟨Nat.sqrt dc, le_antisymm (Nat.sqrt_le dc) h⟩ hns

theorem a0_lt_sqrtD {dc : Nat} (hns : ¬∃ r : Nat, r * r = dc) :
    ((Nat.sqrt dc : Int) : ℝ) < Real.sqrt dc := by
  rw [Real.lt_sqrt (by positivity)]
  have h2 : ((Nat.sqrt dc : ℝ)) * (Nat.sqrt dc : ℝ) < (dc : ℝ) := by
    exact_mod_cast a0_sq_lt hns
  push_cast
  nlinarith [h2]

theorem sqrtD_lt_a0_add_one (dc : Nat) :
    Real.sqrt dc < ((Nat.sqrt dc : Int) : ℝ) + 1 := by
  rw [show ((Nat.sqrt dc : Int) : ℝ) + 1 = ((Nat.sqrt dc + 1 : Nat) : ℝ) by push_cast; ring]
  rw [Real.sqrt_lt' (by positivity)]
  have h2 : (dc : ℝ) < ((Nat.sqrt dc : ℝ) + 1) * ((Nat.sqrt dc : ℝ) + 1) := by
    exact_mod_cast Nat.lt_succ_sqrt dc
  push_cast
  nlinarith [h2]

theorem a0_le_sqrtD (dc : Nat) : ((Nat.sqrt dc : Int) : ℝ) ≤ Real.sqrt dc := by
  rw [Real.le_sqrt (by positivity) (by positivity)]
  have h2 : ((Nat.sqrt dc : ℝ)) * (Nat.sqrt dc : ℝ) ≤ (dc : ℝ) := by
    exact_mod_cast Nat.sqrt_le dc
  push_cast
  nlinarith [h2]

theorem sqrtD_irr {dc : Nat} (hns : ¬∃ r : Nat, r * r = dc) :
    Irrational (Real.sqrt dc) := by
  rw [irrational_sqrt_natCast_iff]
  intro ⟨r, hr⟩
  exact hns ⟨r, hr.symm⟩

theorem floor_sqrtD (dc : Nat) :
    ⌊Real.sqrt dc⌋ = (Nat.sqrt dc : Int) := by
  rw [Int.floor_eq_iff]
  · exact ⟨a0_le_sqrtD dc, by push_cast; exact_mod_cast sqrtD_lt_a0_add_one dc⟩

theorem one_le_a0 {dc : Nat} (hd : 1 < dc) : (1 : Int) ≤ (Nat.sqrt dc : Int) := by
  have : 1 ≤ Nat.sqrt dc := Nat.le_sqrt.mpr (by omega)
  exact_mod_cast this

/-- Integer bounds extracted from a reduced complete quotient:
`1 ≤ d ≤ 2a₀ + 1` and `1 ≤ m ≤ a₀`. -/
theorem reduced_bounds {dc : Nat} (hd : 1 < dc) {k : Nat} (h : Reduced dc k) :
    1 ≤ dS dc k ∧ 1 ≤ mS dc k ∧ mS dc k ≤ (Nat.sqrt dc : Int) ∧
      dS dc k ≤ 2 * (Nat.sqrt dc : Int) + 1 := by
  obtain ⟨h1, h2, h3⟩ := h
  rw [alphaS] at h1
  rw [betaS] at h2 h3
  have hs : 0 < Real.sqrt dc := sqrtD_pos hd
  have hD0 : ((dS dc k : Int) : ℝ) ≠ 0 := by
    intro h0
    rw [h0, div_zero] at h1
    norm_num at h1
  have hDpos : (0 : ℝ) < ((dS dc k : Int) : ℝ) := by
    by_contra hneg
    push_neg at hneg
    have hDneg : ((dS dc k : Int) : ℝ) < 0 := lt_of_le_of_ne hneg hD0
    -- α − β = 2√D / d would be negative, but α > 1 > 0 > β
    have hsub : (Real.sqrt dc + (mS dc k : ℝ)) / (dS dc k : ℝ) -
        (-Real.sqrt dc + (mS dc k : ℝ)) / (dS dc k : ℝ) = 2 * Real.sqrt dc / (dS dc k : ℝ) := by
      field_simp
      ring
    have hpos : 0 < (Real.sqrt dc + (mS dc k : ℝ)) / (dS dc k : ℝ) -
        (-Real.sqrt dc + (mS dc k : ℝ)) / (dS dc k : ℝ) := by linarith
    rw [hsub] at hpos
    have : 2 * Real.sqrt dc / ((dS dc k : Int) : ℝ) < 0 :=
      div_neg_of_pos_of_neg (by linarith) hDneg
    linarith
  have hd1 : (1 : Int) ≤ dS dc k := by exact_mod_cast Int.cast_pos.mp (by exact_mod_cast hDpos)
  -- m > 0 from α + β > 0
  have hm1 : (1 : Int) ≤ mS dc k := by
    have hsum : (Real.sqrt dc + (mS dc k : ℝ)) / (dS dc k : ℝ) +
        (-Real.sqrt dc + (mS dc k : ℝ)) / (dS dc k : ℝ) = 2 * (mS dc k : ℝ) / (dS dc k : ℝ) := by
      field_simp
      ring
    have hpos : 0 < 2 * (mS dc k : ℝ) / ((dS dc k : Int) : ℝ) := by
      rw [← hsum]; linarith
    have hm : (0 : ℝ) < (mS dc k : ℝ) := by
      by_contra hneg
      push_neg at hneg
      have : 2 * (mS dc k : ℝ) / ((dS dc k : Int) : ℝ) ≤ 0 :=
        div_nonpos_of_nonpos_of_nonneg (by linarith) (le_of_lt hDpos)
      linarith
    exact_mod_cast Int.cast_pos.mp (by exact_mod_cast hm)
  -- m < √D from β < 0
  have hmub : mS dc k ≤ (Nat.sqrt dc : Int) := by
    have : -Real.sqrt dc + (mS dc k : ℝ) < 0 := by
      by_contra hge
      push_neg at hge
      have : 0 ≤ (-Real.sqrt dc + (mS dc k : ℝ)) / (dS dc k : ℝ) :=
        div_nonneg hge (le_of_lt hDpos)
      linarith
    have hlt : ((mS dc k : Int) : ℝ) < ((Nat.sqrt dc : Int) : ℝ) + 1 := by
      have := sqrtD_lt_a0_add_one dc
      linarith
    have : (mS dc k : Int) < (Nat.sqrt dc : Int) + 1 := by exact_mod_cast hlt
    omega
  -- d < √D + m from α > 1
  have hdub : dS dc k ≤ 2 * (Nat.sqrt dc : Int) + 1 := by
    have hlt : ((dS dc k : Int) : ℝ) < Real.sqrt dc + (mS dc k : ℝ) :=
      (one_lt_div hDpos).mp h1
    have h2' : Real.sqrt dc < ((Nat.sqrt dc : Int) : ℝ) + 1 := sqrtD_lt_a0_add_one dc
    have h3' : ((mS dc k : Int) : ℝ) ≤ ((Nat.sqrt dc : Int) : ℝ) := by exact_mod_cast hmub
    have : ((dS dc k : Int) : ℝ) < 2 * ((Nat.sqrt dc : Int) : ℝ) + 1 := by linarith
    have : (dS dc k : Int) < 2 * (Nat.sqrt dc : Int) + 1 := by exact_mod_cast this
    omega
  exact ⟨hd1, hm1, hmub, hdub⟩

/-- Truncating integer division of `⌊x⌋ + m` by a positive `d` computes the
floor of `(x + m)/d`. -/
theorem tdiv_floor (x : ℝ) (m d : Int) (hd : 0 < d) (hm : 0 ≤ ⌊x⌋ + m) :
    (⌊x⌋ + m).tdiv d = ⌊(x + (m : ℝ)) / (d : ℝ)⌋ := by
  rw [Int.tdiv_eq_ediv hm (le_of_lt hd)]
  have hqr : d * ((⌊x⌋ + m) / d) + (⌊x⌋ + m) % d = ⌊x⌋ + m := Int.ediv_add_emod _ _
  have hr0 : 0 ≤ (⌊x⌋ + m) % d := Int.emod_nonneg _ (by omega)
  have hrd : (⌊x⌋ + m) % d < d := Int.emod_lt_of_pos _ hd
  have hdR : (0 : ℝ) < (d : ℝ) := by exact_mod_cast hd
  symm
  rw [Int.floor_eq_iff]
  have hfl : (⌊x⌋ : ℝ) ≤ x := Int.floor_le x
  have hfu : x < (⌊x⌋ : ℝ) + 1 := Int.lt_floor_add_one x
  have hqrR : (d : ℝ) * (((⌊x⌋ + m) / d : Int) : ℝ) + (((⌊x⌋ + m) % d : Int) : ℝ) =
      (⌊x⌋ : ℝ) + (m : ℝ) := by exact_mod_cast congrArg (Int.cast : Int → ℝ) hqr
  have hr0R : (0 : ℝ) ≤ (((⌊x⌋ + m) % d : Int) : ℝ) := by exact_mod_cast hr0
  have hrdR : (((⌊x⌋ + m) % d : Int) : ℝ) ≤ (d : ℝ) - 1 := by
    have h2 : (((⌊x⌋ + m) % d : Int) : ℝ) ≤ ((d - 1 : Int) : ℝ) :=
      Int.cast_le.mpr (by omega)
    push_cast at h2
    linarith
  constructor
  · rw [le_div_iff hdR]
    nlinarith [hqrR, hr0R, hfl]
  · rw [div_lt_iff hdR]
    push_cast
    nlinarith [hqrR, hrdR, hfu]

/-- For positive `d` and nonnegative `m`, the source's `a`-update computes
`⌊α⌋` for the corresponding complete quotient. -/
theorem aS_eq_floor {dc : Nat} (k : Nat)
    (hdp : 0 < dS dc k) (hmp : 0 ≤ mS dc k) : aS dc k = ⌊alphaS dc k⌋ := by
  cases k with
  | zero =>
    have hα : alphaS dc 0 = Real.sqrt dc := by
      rw [alphaS, mS_zero, dS_zero]
      push_cast
      simp
    rw [hα, floor_sqrtD, aS_zero]
  | succ k =>
    have hα : alphaS dc (k + 1) =
        (Real.sqrt dc + (mS dc (k + 1) : ℝ)) / ((dS dc (k + 1) : Int) : ℝ) := rfl
    rw [hα, aS_succ, ← floor_sqrtD dc]
    exact tdiv_floor (Real.sqrt dc) (mS dc (k + 1)) (dS dc (k + 1)) hdp
      (by rw [floor_sqrtD dc]; have := Int.ofNat_nonneg (Nat.sqrt dc); omega)

theorem alphaS_sub_aS {dc : Nat} (k : Nat) (hd : dS dc k ≠ 0) :
    alphaS dc k - (aS dc k : ℝ) =
      (Real.sqrt dc - (mS dc (k + 1) : ℝ)) / (dS dc k : ℝ) := by
  rw [alphaS, mS_succ]
  have hdR : ((dS dc k : Int) : ℝ) ≠ 0 := by exact_mod_cast hd
  field_simp
  push_cast
  ring

theorem betaS_sub_aS {dc : Nat} (k : Nat) (hd : dS dc k ≠ 0) :
    betaS dc k - (aS dc k : ℝ) =
      (-Real.sqrt dc - (mS dc (k + 1) : ℝ)) / (dS dc k : ℝ) := by
  rw [betaS, mS_succ]
  have hdR : ((dS dc k : Int) : ℝ) ≠ 0 := by exact_mod_cast hd
  field_simp
  push_cast
  ring

theorem alphaS_succ {dc : Nat} (hns : ¬∃ r : Nat, r * r = dc) (k : Nat)
    (hdk : dS dc k ≠ 0) :
    alphaS dc (k + 1) = 1 / (alphaS dc k - (aS dc k : ℝ)) := by
  have hdk1 : dS dc (k + 1) ≠ 0 := dS_ne_zero hns (k + 1)
  have hdk1R : ((dS dc (k + 1) : Int) : ℝ) ≠ 0 := by exact_mod_cast hdk1
  have hdkR : ((dS dc k : Int) : ℝ) ≠ 0 := by exact_mod_cast hdk
  have hirr : Irrational (Real.sqrt dc) := sqrtD_irr hns
  have hne : Real.sqrt dc - ((mS dc (k + 1) : Int) : ℝ) ≠ 0 :=
    sub_ne_zero.mpr (hirr.ne_int _)
  rw [alphaS_sub_aS k hdk, one_div_div, alphaS]
  rw [div_eq_div_iff hdk1R hne]
  have hE : ((dS dc k : Int) : ℝ) * ((dS dc (k + 1) : Int) : ℝ) =
      ((dc : Nat) : ℝ) - ((mS dc (k + 1) : Int) : ℝ) * ((mS dc (k + 1) : Int) : ℝ) := by
    exact_mod_cast congrArg (Int.cast : Int → ℝ) (surd_exact dc k)
  have hsq : Real.sqrt dc * Real.sqrt dc = ((dc : Nat) : ℝ) :=
    Real.mul_self_sqrt (by positivity)
  linear_combination hsq - hE

theorem betaS_succ {dc : Nat} (hns : ¬∃ r : Nat, r * r = dc) (k : Nat)
    (hdk : dS dc k ≠ 0) :
    betaS dc (k + 1) = 1 / (betaS dc k - (aS dc k : ℝ)) := by
  have hdk1 : dS dc (k + 1) ≠ 0 := dS_ne_zero hns (k + 1)
  have hdk1R : ((dS dc (k + 1) : Int) : ℝ) ≠ 0 := by exact_mod_cast hdk1
  have hdkR : ((dS dc k : Int) : ℝ) ≠ 0 := by exact_mod_cast hdk
  have hirr : Irrational (Real.sqrt dc) := sqrtD_irr hns
  have hne : -Real.sqrt dc - ((mS dc (k + 1) : Int) : ℝ) ≠ 0 := by
    intro h
    have : Real.sqrt dc = -((mS dc (k + 1) : Int) : ℝ) := by linarith
    exact (hirr.ne_int (-(mS dc (k + 1)))) (by push_cast [this]; ring)
  rw [betaS_sub_aS k hdk, one_div_div, betaS]
  rw [div_eq_div_iff hdk1R hne]
  have hE : ((dS dc k : Int) : ℝ) * ((dS dc (k + 1) : Int) : ℝ) =
      ((dc : Nat) : ℝ) - ((mS dc (k + 1) : Int) : ℝ) * ((mS dc (k + 1) : Int) : ℝ) := by
    exact_mod_cast congrArg (Int.cast : Int → ℝ) (surd_exact dc k)
  have hsq : Real.sqrt dc * Real.sqrt dc = ((dc : Nat) : ℝ) :=
    Real.mul_self_sqrt (by positivity)
  linear_combination hsq - hE

/-- The inductive step: if the current complete quotient has positive `d` and
its fractional data is in good position, the next one is reduced. -/
theorem reduced_step {dc : Nat} (hns : ¬∃ r : Nat, r * r = dc) (k : Nat)
    (hdk : 0 < dS dc k)
    (h1 : 0 < alphaS dc k - (aS dc k : ℝ))
    (h2 : alphaS dc k - (aS dc k : ℝ) < 1)
    (h3 : betaS dc k - (aS dc k : ℝ) < -1) : Reduced dc (k + 1) := by
  have hdk' : dS dc k ≠ 0 := ne_of_gt hdk
  have hA := alphaS_succ hns k hdk'
  have hB := betaS_succ hns k hdk'
  have hy : betaS dc k - (aS dc k : ℝ) < 0 := lt_trans h3 (by norm_num)
  refine ⟨?_, ?_, ?_⟩
  · rw [hA]
    exact one_lt_one_div h1 h2
  · rw [hB, lt_div_iff_of_neg hy]
    linarith
  · rw [hB]
    exact div_neg_of_pos_of_neg one_pos hy

/-- Every complete quotient from index 1 on is reduced. -/
theorem surd_reduced {dc : Nat} (hd : 1 < dc) (hns : ¬∃ r : Nat, r * r = dc) :
    ∀ k, Reduced dc (k + 1) := by
  have hα0 : alphaS dc 0 = Real.sqrt dc := by
    rw [alphaS, mS_zero, dS_zero]
    push_cast
    simp
  have hβ0 : betaS dc 0 = -Real.sqrt dc := by
    rw [betaS, mS_zero, dS_zero]
    push_cast
    simp
  have ha0 : (aS dc 0 : ℝ) = ((Nat.sqrt dc : Int) : ℝ) := by rw [aS_zero]
  have ha0R : (1 : ℝ) ≤ ((Nat.sqrt dc : Int) : ℝ) := by exact_mod_cast one_le_a0 hd
  intro k
  induction k with
  | zero =>
    apply reduced_step hns 0 (by rw [dS_zero]; norm_num)
    · rw [hα0, ha0]
      have := a0_lt_sqrtD hns
      linarith
    · rw [hα0, ha0]
      have := sqrtD_lt_a0_add_one dc
      linarith
    · rw [hβ0, ha0]
      have := one_lt_sqrtD hd
      linarith
  | succ k ih =>
    have hb := reduced_bounds hd ih
    have hdk1 : 0 < dS dc (k + 1) := by omega
    have hflr : aS dc (k + 1) = ⌊alphaS dc (k + 1)⌋ :=
      aS_eq_floor (k + 1) hdk1 (by omega)
    have hirr : Irrational (alphaS dc (k + 1)) := by
      rw [alphaS]
      exact ((sqrtD_irr hns).add_int _).div_int (by exact_mod_cast ne_of_gt hdk1)
    obtain ⟨hα1, hβ1, hβ2⟩ := ih
    have ha1 : (1 : Int) ≤ aS dc (k + 1) := by
      rw [hflr]
      exact Int.le_floor.mpr (by exact_mod_cast le_of_lt hα1)
    have ha1R : (1 : ℝ) ≤ (aS dc (k + 1) : ℝ) := by exact_mod_cast ha1
    apply reduced_step hns (k + 1) hdk1
    · rw [hflr]
      have hle : (⌊alphaS dc (k + 1)⌋ : ℝ) ≤ alphaS dc (k + 1) := Int.floor_le _
      have hne : alphaS dc (k + 1) ≠ (⌊alphaS dc (k + 1)⌋ : ℝ) := hirr.ne_int _
      have : (⌊alphaS dc (k + 1)⌋ : ℝ) < alphaS dc (k + 1) := lt_of_le_of_ne hle (Ne.symm hne)
      linarith
    · rw [hflr]
      have := Int.lt_floor_add_one (alphaS dc (k + 1))
      linarith
    · linarith

/-- The standing integer invariant of the surd recurrence. -/
theorem surd_invariant {dc : Nat} (hd : 1 < dc) (hns : ¬∃ r : Nat, r * r = dc) (k : Nat) :
    0 < dS dc k ∧ 0 ≤ mS dc k ∧ mS dc k ≤ (Nat.sqrt dc : Int) ∧
      dS dc k ≤ 2 * (Nat.sqrt dc : Int) + 1 ∧ 1 ≤ aS dc k := by
  cases k with
  | zero =>
    have h1 := one_le_a0 hd
    refine ⟨by rw [dS_zero]; norm_num, by rw [mS_zero], ?_, ?_, by rw [aS_zero]; exact h1⟩
    · rw [mS_zero]; omega
    · rw [dS_zero]; omega
  | succ k =>
    have hred := surd_reduced hd hns k
    have hb := reduced_bounds hd hred
    have hflr : aS dc (k + 1) = ⌊alphaS dc (k + 1)⌋ :=
      aS_eq_floor (k + 1) (by omega) (by omega)
    refine ⟨by omega, by omega, hb.2.2.1, hb.2.2.2, ?_⟩
    rw [hflr]
    exact Int.le_floor.mpr (by exact_mod_cast le_of_lt hred.1)

/-! ## The wrapped `i128` loop state equals the exact surd state -/

theorem wrap128_eq {x : Int} (h1 : -(2 ^ 127) ≤ x) (h2 : x < 2 ^ 127) :
    wrap128 x = x := by
  rw [wrap128, Int.emod_eq_of_lt (by omega) (by omega)]
  omega

/-- The loop state of `pell_min_solution` after `j` iterations of the body,
for a valid discriminant (so `a0 = ⌊√D⌋`). -/
def stateAt (dc : Nat) (j : Nat) : PellState :=
  (pellIter (dc : Int) ((Nat.sqrt dc : Nat) : Int))^[j] (pellInit ((Nat.sqrt dc : Nat) : Int))

theorem a0_le_two_pow {dc : Nat} (h64 : dc < 2 ^ 64) :
    (Nat.sqrt dc : Int) ≤ 2 ^ 32 - 1 := by
  have := sqrt_lt_two_pow_32 h64
  omega

theorem dS_mul_aS_le {dc : Nat} (hd : 1 < dc) (hns : ¬∃ r : Nat, r * r = dc) (k : Nat) :
    dS dc k * aS dc k ≤ (Nat.sqrt dc : Int) + mS dc k := by
  cases k with
  | zero =>
    rw [dS_zero, aS_zero, mS_zero]
    omega
  | succ k =>
    obtain ⟨hdp, hmp, _, _, _⟩ := surd_invariant hd hns (k + 1)
    rw [aS_succ]
    have hnum : (0 : Int) ≤ (Nat.sqrt dc : Int) + mS dc (k + 1) := by
      have := one_le_a0 hd
      omega
    rw [Int.tdiv_eq_ediv hnum (by omega)]
    have hmod := Int.ediv_add_emod ((Nat.sqrt dc : Int) + mS dc (k + 1)) (dS dc (k + 1))
    have hmn := Int.emod_nonneg ((Nat.sqrt dc : Int) + mS dc (k + 1))
      (by omega : dS dc (k + 1) ≠ 0)
    omega

/-- All quantities the loop body computes in `i128` stay far inside the
representable range. -/
theorem surd_small {dc : Nat} (hd : 1 < dc) (hns : ¬∃ r : Nat, r * r = dc)
    (h64 : dc < 2 ^ 64) (k : Nat) :
    |dS dc k * aS dc k - mS dc k| < 2 ^ 127 ∧
    |(dc : Int) - mS dc (k + 1) * mS dc (k + 1)| < 2 ^ 127 ∧
    |(Nat.sqrt dc : Int) + mS dc (k + 1)| < 2 ^ 127 := by
  obtain ⟨hdp, hmp, hma, hdb, hap⟩ := surd_invariant hd hns k
  obtain ⟨hdp1, hmp1, hma1, hdb1, hap1⟩ := surd_invariant hd hns (k + 1)
  have ha0 := a0_le_two_pow h64
  have ha0p := one_le_a0 hd
  have hda := dS_mul_aS_le hd hns k
  have hdapos : 1 ≤ dS dc k * aS dc k := by
    have : (1 : Int) * 1 ≤ dS dc k * aS dc k :=
      mul_le_mul (by omega) (by omega) (by omega) (by omega)
    omega
  have hsq : mS dc (k + 1) * mS dc (k + 1) ≤
      (Nat.sqrt dc : Int) * (Nat.sqrt dc : Int) :=
    mul_le_mul hma1 hma1 hmp1 (by omega)
  have hsqp : 0 ≤ mS dc (k + 1) * mS dc (k + 1) := mul_nonneg hmp1 hmp1
  have ha0sq : (Nat.sqrt dc : Int) * (Nat.sqrt dc : Int) ≤ (2 ^ 32 - 1) * (2 ^ 32 - 1) :=
    mul_le_mul ha0 ha0 (by omega) (by omega)
  have hdc : (dc : Int) < 2 ^ 64 := by exact_mod_cast h64
  have hdcp : (0 : Int) < dc := by exact_mod_cast lt_trans one_pos hd
  rw [abs_lt, abs_lt, abs_lt]
  norm_num
  omega

/-- The wrapped `i128` computation of the loop body reproduces the exact surd
state at every iteration: no wrap-around ever occurs. -/
theorem stateAt_surd {dc : Nat} (hd : 1 < dc) (hns : ¬∃ r : Nat, r * r = dc)
    (h64 : dc < 2 ^ 64) : ∀ j,
    (stateAt dc j).m = mS dc j ∧ (stateAt dc j).d = dS dc j ∧ (stateAt dc j).a = aS dc j := by
  intro j
  induction j with
  | zero => exact ⟨rfl, rfl, rfl⟩
  | succ j ih =>
    obtain ⟨him, hid, hia⟩ := ih
    obtain ⟨hb1, hb2, hb3⟩ := surd_small hd hns h64 j
    rw [abs_lt] at hb1 hb2 hb3
    have hstep : stateAt dc (j + 1) =
        pellIter (dc : Int) ((Nat.sqrt dc : Nat) : Int) (stateAt dc j) :=
      Function.iterate_succ_apply' _ j _
    rw [hstep, pellIter, him, hid, hia]
    have hm' : wrap128 (dS dc j * aS dc j - mS dc j) = mS dc (j + 1) := by
      rw [wrap128_eq (by omega) (by omega), mS_succ]
    rw [hm']
    have hd' : (wrap128 ((dc : Int) - mS dc (j + 1) * mS dc (j + 1))).tdiv (dS dc j) =
        dS dc (j + 1) := by
      rw [wrap128_eq (by omega) (by omega), dS_succ]
    rw [hd']
    have ha' : (wrap128 (((Nat.sqrt dc : Nat) : Int) + mS dc (j + 1))).tdiv (dS dc (j + 1)) =
        aS dc (j + 1) := by
      rw [wrap128_eq (by omega) (by omega), aS_succ]
    rw [ha']
    exact ⟨rfl, rfl, rfl⟩

/-- Numerators of the convergents `p_{j-1}` as produced by the loop
(`pconv (j+1) = p_j`, with `pconv 0 = p₋₁ = 1`). -/
def pconv (dc : Nat) : Nat → Int
  | 0 => 1
  | 1 => (Nat.sqrt dc : Int)
  | k + 2 => aS dc (k + 1) * pconv dc (k + 1) + pconv dc k

/-- Denominators of the convergents (`qconv (j+1) = q_j`, `qconv 0 = q₋₁ = 0`). -/
def qconv (dc : Nat) : Nat → Int
  | 0 => 0
  | 1 => 1
  | k + 2 => aS dc (k + 1) * qconv dc (k + 1) + qconv dc k

theorem pellIter_p1 (dc a0 : Int) (s : PellState) : (pellIter dc a0 s).p1 = s.p := rfl

theorem pellIter_q1 (dc a0 : Int) (s : PellState) : (pellIter dc a0 s).q1 = s.q := rfl

theorem pellIter_p (dc a0 : Int) (s : PellState) :
    (pellIter dc a0 s).p = (pellIter dc a0 s).a * s.p + s.p1 := rfl

theorem pellIter_q (dc a0 : Int) (s : PellState) :
    (pellIter dc a0 s).q = (pellIter dc a0 s).a * s.q + s.q1 := rfl

/-- The `BigInt` convergent fields of the loop state are the `pconv`/`qconv`
sequences. -/
theorem stateAt_conv {dc : Nat} (hd : 1 < dc) (hns : ¬∃ r : Nat, r * r = dc)
    (h64 : dc < 2 ^ 64) : ∀ j,
    (stateAt dc j).p1 = pconv dc j ∧ (stateAt dc j).q1 = qconv dc j ∧
    (stateAt dc j).p = pconv dc (j + 1) ∧ (stateAt dc j).q = qconv dc (j + 1) := by
  intro j
  induction j with
  | zero =>
    refine ⟨rfl, rfl, ?_, ?_⟩
    · show ((Nat.sqrt dc : Nat) : Int) * 1 + 0 = pconv dc 1
      rw [pconv]
      ring
    · show ((Nat.sqrt dc : Nat) : Int) * 0 + 1 = qconv dc 1
      rw [qconv]
      ring
  | succ j ih =>
    obtain ⟨hp1, hq1, hp, hq⟩ := ih
    have hstep : stateAt dc (j + 1) =
        pellIter (dc : Int) ((Nat.sqrt dc : Nat) : Int) (stateAt dc j) :=
      Function.iterate_succ_apply' _ j _
    have ha : (pellIter (dc : Int) ((Nat.sqrt dc : Nat) : Int) (stateAt dc j)).a =
        aS dc (j + 1) := by
      rw [← hstep]
      exact (stateAt_surd hd hns h64 (j + 1)).2.2
    rw [hstep]
    refine ⟨?_, ?_, ?_, ?_⟩
    · rw [pellIter_p1, hp]
    · rw [pellIter_q1, hq]
    · rw [pellIter_p, ha, hp, hp1, pconv]
    · rw [pellIter_q, ha, hq, hq1, qconv]

/-- C7: at every iteration of the continued-fraction loop the surd update is
safe and exact: the wrapped `i128` state equals the exact integer state (no
overflow), the new `d` is positive, `d_j` divides `D − m_{j+1}²` exactly (so
truncating division is exact division), the `a`-update's truncating division
equals floor division, and all `i128` intermediates are in range. -/
theorem claim_C7 (dc j : Nat) (hd : 1 < dc) (hns : ¬∃ r : Nat, r * r = dc)
    (h64 : dc < 2 ^ 64) :
    (stateAt dc j).m = mS dc j ∧ (stateAt dc j).d = dS dc j ∧ (stateAt dc j).a = aS dc j ∧
    0 < dS dc (j + 1) ∧
    dS dc j ∣ ((dc : Int) - mS dc (j + 1) * mS dc (j + 1)) ∧
    dS dc j * dS dc (j + 1) = (dc : Int) - mS dc (j + 1) * mS dc (j + 1) ∧
    ((dc : Int) - mS dc (j + 1) * mS dc (j + 1)).tdiv (dS dc j) =
      ((dc : Int) - mS dc (j + 1) * mS dc (j + 1)) / dS dc j ∧
    ((Nat.sqrt dc : Int) + mS dc (j + 1)).tdiv (dS dc (j + 1)) =
      ((Nat.sqrt dc : Int) + mS dc (j + 1)) / dS dc (j + 1) ∧
    |dS dc j * aS dc j - mS dc j| < 2 ^ 127 ∧
    |(dc : Int) - mS dc (j + 1) * mS dc (j + 1)| < 2 ^ 127 ∧
    |(Nat.sqrt dc : Int) + mS dc (j + 1)| < 2 ^ 127 := by
  obtain ⟨h1, h2, h3⟩ := stateAt_surd hd hns h64 j
  obtain ⟨hs1, hs2, hs3⟩ := surd_small hd hns h64 j
  obtain ⟨hdp, hmp, _, _, _⟩ := surd_invariant hd hns j
  obtain ⟨hdp1, hmp1, _, _, _⟩ := surd_invariant hd hns (j + 1)
  have hE := surd_exact dc j
  have hnum : (0 : Int) ≤ (dc : Int) - mS dc (j + 1) * mS dc (j + 1) := by
    have : (1 : Int) * 1 ≤ dS dc j * dS dc (j + 1) :=
      mul_le_mul (by omega) (by omega) (by omega) (by omega)
    omega
  have ha0p := one_le_a0 hd
  refine ⟨h1, h2, h3, hdp1, dS_dvd dc j, hE, ?_, ?_, hs1, hs2, hs3⟩
  · exact Int.tdiv_eq_ediv hnum (by omega)
  · exact Int.tdiv_eq_ediv (by omega) (by omega)

/-- Helper: 2 is not a perfect square. -/
theorem two_not_square : ¬∃ r : Nat, r * r = 2 := by
  intro ⟨r, hr⟩
  have h1 : r ≤ 1 := by
    by_contra h
    push_neg at h
    have : 2 * 2 ≤ r * r := Nat.mul_le_mul h h
    omega
  interval_cases r <;> omega

/-- C7 witness: `D = 2`, iteration `j = 1`. -/
theorem claim_C7_witness :
    ((1 : Nat) < 2 ∧ (2 : Nat) < 2 ^ 64) ∧
    ((stateAt 2 1).m = mS 2 1 ∧ (stateAt 2 1).d = dS 2 1 ∧ (stateAt 2 1).a = aS 2 1 ∧
    0 < dS 2 (1 + 1) ∧
    dS 2 1 ∣ ((2 : Int) - mS 2 (1 + 1) * mS 2 (1 + 1)) ∧
    dS 2 1 * dS 2 (1 + 1) = (2 : Int) - mS 2 (1 + 1) * mS 2 (1 + 1) ∧
    ((2 : Int) - mS 2 (1 + 1) * mS 2 (1 + 1)).tdiv (dS 2 1) =
      ((2 : Int) - mS 2 (1 + 1) * mS 2 (1 + 1)) / dS 2 1 ∧
    ((Nat.sqrt 2 : Int) + mS 2 (1 + 1)).tdiv (dS 2 (1 + 1)) =
      ((Nat.sqrt 2 : Int) + mS 2 (1 + 1)) / dS 2 (1 + 1) ∧
    |dS 2 1 * aS 2 1 - mS 2 1| < 2 ^ 127 ∧
    |(2 : Int) - mS 2 (1 + 1) * mS 2 (1 + 1)| < 2 ^ 127 ∧
    |(Nat.sqrt 2 : Int) + mS 2 (1 + 1)| < 2 ^ 127) :=
  ⟨⟨by norm_num, by norm_num⟩, claim_C7 2 1 (by norm_num) two_not_square (by norm_num)⟩

/-! ## The convergent identity `p_{k-1}² − D·q_{k-1}² = (−1)^k · d_k` -/

theorem conv_identity {dc : Nat} (hns : ¬∃ r : Nat, r * r = dc) : ∀ k : Nat,
    pconv dc k ^ 2 - (dc : Int) * qconv dc k ^ 2 = (-1) ^ k * dS dc k ∧
    pconv dc (k + 1) ^ 2 - (dc : Int) * qconv dc (k + 1) ^ 2 =
      (-1) ^ (k + 1) * dS dc (k + 1) ∧
    pconv dc (k + 1) * pconv dc k - (dc : Int) * (qconv dc (k + 1) * qconv dc k) =
      (-1) ^ k * mS dc (k + 1) := by
  intro k
  have hm1 : mS dc 1 = (Nat.sqrt dc : Int) := by
    rw [mS_succ, dS_zero, aS_zero, mS_zero]
    ring
  have hd1 : dS dc 1 = (dc : Int) - (Nat.sqrt dc : Int) * (Nat.sqrt dc : Int) := by
    rw [dS_succ, dS_zero, Int.tdiv_one, hm1]
  induction k with
  | zero =>
    refine ⟨?_, ?_, ?_⟩
    · rw [pconv, qconv, dS_zero]
      ring
    · rw [pconv, qconv, hd1]
      ring
    · rw [pconv, pconv, qconv, qconv, hm1]
      ring
  | succ k ih =>
    obtain ⟨hA0, hA1, hB⟩ := ih
    have hF := dS_succ_succ hns k
    have hM := mS_succ dc (k + 1)
    refine ⟨hA1, ?_, ?_⟩
    · show pconv dc (k + 2) ^ 2 - (dc : Int) * qconv dc (k + 2) ^ 2 =
        (-1) ^ (k + 2) * dS dc (k + 2)
      rw [pconv, qconv, hF]
      linear_combination (aS dc (k + 1)) ^ 2 * hA1 + 2 * aS dc (k + 1) * hB + hA0
    · show pconv dc (k + 2) * pconv dc (k + 1) -
        (dc : Int) * (qconv dc (k + 2) * qconv dc (k + 1)) = (-1) ^ (k + 1) * mS dc (k + 2)
      rw [pconv, qconv, hM]
      linear_combination aS dc (k + 1) * hA1 + hB

/-! ## Periodicity of the surd state and termination of the loop -/

/-- An irrational number cannot satisfy a nontrivial integer linear relation. -/
theorem irr_no_int_relation {x : ℝ} (hx : Irrational x) {c z : Int} (hc : c ≠ 0)
    (h : (c : ℝ) * x = (z : ℝ)) : False := by
  apply hx
  refine ⟨(z : ℚ) / (c : ℚ), ?_⟩
  have hcR : (c : ℝ) ≠ 0 := by exact_mod_cast hc
  have hcQ : (c : ℚ) ≠ 0 := by exact_mod_cast hc
  push_cast
  rw [eq_comm, eq_div_iff hcR]
  linarith [h]

/-- Two complete quotients with positive `d` and equal values have equal
state pairs. -/
theorem surd_pair_of_alpha_eq {dc : Nat} (hns : ¬∃ r : Nat, r * r = dc) {i j : Nat}
    (hdi : 0 < dS dc i) (hdj : 0 < dS dc j) (h : alphaS dc i = alphaS dc j) :
    mS dc i = mS dc j ∧ dS dc i = dS dc j := by
  have hirr := sqrtD_irr hns
  have hdiR : ((dS dc i : Int) : ℝ) ≠ 0 := by exact_mod_cast ne_of_gt hdi
  have hdjR : ((dS dc j : Int) : ℝ) ≠ 0 := by exact_mod_cast ne_of_gt hdj
  rw [alphaS, alphaS, div_eq_div_iff hdiR hdjR] at h
  have hdd : dS dc i = dS dc j := by
    by_contra hne
    refine irr_no_int_relation hirr (c := dS dc j - dS dc i)
      (z := dS dc i * mS dc j - dS dc j * mS dc i) (by omega) ?_
    push_cast
    linarith [h]
  refine ⟨?_, hdd⟩
  have : ((dS dc i : Int) : ℝ) * (mS dc i : ℝ) = ((dS dc i : Int) : ℝ) * (mS dc j : ℝ) := by
    rw [hdd] at h ⊢
    linarith [h]
  have := mul_left_cancel₀ hdiR this
  exact_mod_cast this

/-- Backward uniqueness of the step on reduced states. -/
theorem surd_back {dc : Nat} (hd : 1 < dc) (hns : ¬∃ r : Nat, r * r = dc) (i j : Nat)
    (h : surd dc (i + 2) = surd dc (j + 2)) : surd dc (i + 1) = surd dc (j + 1) := by
  have hmE : mS dc (i + 2) = mS dc (j + 2) := congrArg Prod.fst h
  have hdE : dS dc (i + 2) = dS dc (j + 2) := congrArg (fun s => s.2.1) h
  have hαE : alphaS dc (i + 2) = alphaS dc (j + 2) := by rw [alphaS, alphaS, hmE, hdE]
  have hβE : betaS dc (i + 2) = betaS dc (j + 2) := by rw [betaS, betaS, hmE, hdE]
  obtain ⟨hri1, hri2, hri3⟩ := surd_reduced hd hns i
  obtain ⟨hsi1, hsi2, hsi3⟩ := surd_reduced hd hns j
  have hdi1 : 0 < dS dc (i + 1) := (reduced_bounds hd ⟨hri1, hri2, hri3⟩).1
  have hdj1 : 0 < dS dc (j + 1) := (reduced_bounds hd ⟨hsi1, hsi2, hsi3⟩).1
  -- the β-transition inverted: `β_{k+1} − a_{k+1} = 1/β_{k+2}`
  have hainv : betaS dc (i + 1) - (aS dc (i + 1) : ℝ) = 1 / betaS dc (i + 2) := by
    rw [betaS_succ hns (i + 1) (ne_of_gt hdi1), one_div_one_div]
  have hbinv : betaS dc (j + 1) - (aS dc (j + 1) : ℝ) = 1 / betaS dc (j + 2) := by
    rw [betaS_succ hns (j + 1) (ne_of_gt hdj1), one_div_one_div]
  -- the partial quotients one step earlier agree
  have haeq : aS dc (i + 1) = aS dc (j + 1) := by
    have hdiff : ((aS dc (i + 1) : Int) : ℝ) - ((aS dc (j + 1) : Int) : ℝ) =
        betaS dc (i + 1) - betaS dc (j + 1) := by
      rw [hβE] at hainv
      linarith [hainv, hbinv]
    have hub : ((aS dc (i + 1) : Int) : ℝ) - ((aS dc (j + 1) : Int) : ℝ) < 1 := by
      rw [hdiff]; linarith
    have hlb : (-1 : ℝ) < ((aS dc (i + 1) : Int) : ℝ) - ((aS dc (j + 1) : Int) : ℝ) := by
      rw [hdiff]; linarith
    have hub' : aS dc (i + 1) - aS dc (j + 1) < 1 := by
      have hc : ((aS dc (i + 1) - aS dc (j + 1) : Int) : ℝ) < ((1 : Int) : ℝ) := by
        push_cast
        linarith
      exact_mod_cast hc
    have hlb' : (-1 : Int) < aS dc (i + 1) - aS dc (j + 1) := by
      have hc : (((-1) : Int) : ℝ) < ((aS dc (i + 1) - aS dc (j + 1) : Int) : ℝ) := by
        push_cast
        linarith
      exact_mod_cast hc
    omega
  -- hence the α's one step earlier agree, and the state pairs follow
  have hainvα : alphaS dc (i + 1) - (aS dc (i + 1) : ℝ) = 1 / alphaS dc (i + 2) := by
    rw [alphaS_succ hns (i + 1) (ne_of_gt hdi1), one_div_one_div]
  have hbinvα : alphaS dc (j + 1) - (aS dc (j + 1) : ℝ) = 1 / alphaS dc (j + 2) := by
    rw [alphaS_succ hns (j + 1) (ne_of_gt hdj1), one_div_one_div]
  have hαeq : alphaS dc (i + 1) = alphaS dc (j + 1) := by
    rw [hαE] at hainvα
    have hacast : ((aS dc (i + 1) : Int) : ℝ) = ((aS dc (j + 1) : Int) : ℝ) := by
      exact_mod_cast haeq
    linarith [hainvα, hbinvα]
  obtain ⟨hmeq, hdeq⟩ := surd_pair_of_alpha_eq hns hdi1 hdj1 hαeq
  have hi : surd dc (i + 1) = (mS dc (i + 1), dS dc (i + 1), aS dc (i + 1)) := rfl
  have hj : surd dc (j + 1) = (mS dc (j + 1), dS dc (j + 1), aS dc (j + 1)) := rfl
  rw [hi, hj, hmeq, hdeq, haeq]

/-- Forward determinism of the surd recurrence. -/
theorem surd_forward {dc : Nat} {i j : Nat} (h : surd dc i = surd dc j) :
    ∀ t, surd dc (i + t) = surd dc (j + t) := by
  intro t
  induction t with
  | zero => exact h
  | succ t ih =>
    show surd dc (i + t + 1) = surd dc (j + t + 1)
    rw [surd, surd, ih]

/-- Two distinct indices ≥ 1 carry the same surd state (pigeonhole on the
finitely many reduced states). -/
theorem surd_repeat {dc : Nat} (hd : 1 < dc) (hns : ¬∃ r : Nat, r * r = dc) :
    ∃ i j : Nat, i < j ∧ surd dc (i + 1) = surd dc (j + 1) := by
  set a0 : Int := (Nat.sqrt dc : Int) with ha0
  set T : Finset (Int × Int) := Finset.Icc 1 a0 ×ˢ Finset.Icc 1 (2 * a0 + 1) with hT
  have hmaps : ∀ k ∈ Finset.range (T.card + 1),
      (fun k => (mS dc (k + 1), dS dc (k + 1))) k ∈ T := by
    intro k _
    have hred := surd_reduced hd hns k
    obtain ⟨h1, h2, h3, h4⟩ := reduced_bounds hd hred
    simp only [hT, Finset.mem_product, Finset.mem_Icc]
    exact ⟨⟨h2, h3⟩, ⟨h1, h4⟩⟩
  obtain ⟨x, hx, y, hy, hxy, hfxy⟩ :=
    Finset.exists_ne_map_eq_of_card_lt_of_maps_to
      (by rw [Finset.card_range]; omega) hmaps
  have hkey : ∀ u v : Nat, mS dc (u + 1) = mS dc (v + 1) → dS dc (u + 1) = dS dc (v + 1) →
      surd dc (u + 1) = surd dc (v + 1) := by
    intro u v hm hdv
    have hu : surd dc (u + 1) = (mS dc (u + 1), dS dc (u + 1), aS dc (u + 1)) := rfl
    have hv : surd dc (v + 1) = (mS dc (v + 1), dS dc (v + 1), aS dc (v + 1)) := rfl
    have ha : aS dc (u + 1) = aS dc (v + 1) := by
      rw [aS_succ, aS_succ, hm, hdv]
    rw [hu, hv, hm, hdv, ha]
  have hm := congrArg Prod.fst hfxy
  have hdv := congrArg Prod.snd hfxy
  simp only at hm hdv
  rcases Nat.lt_or_ge x y with hlt | hge
  · exact ⟨x, y, hlt, hkey x y hm hdv⟩
  · have hlt : y < x := by omega
    exact ⟨y, x, hlt, (hkey x y hm hdv).symm⟩

/-- The surd state is purely periodic from index 1: some period `ℓ ≥ 1`
returns the state at index 1 to itself. -/
theorem surd_period {dc : Nat} (hd : 1 < dc) (hns : ¬∃ r : Nat, r * r = dc) :
    ∃ l : Nat, 1 ≤ l ∧ surd dc (1 + l) = surd dc 1 := by
  obtain ⟨i, j, hij, heq⟩ := surd_repeat hd hns
  have hwalk : ∀ i j : Nat, i ≤ j → surd dc (i + 1) = surd dc (j + 1) →
      surd dc 1 = surd dc (j - i + 1) := by
    intro i
    induction i with
    | zero => intro j _ h; simpa using h
    | succ i ih =>
      intro j hij h
      rcases j with _ | j
      · omega
      · have h2 : surd dc (i + 1) = surd dc (j + 1) := surd_back hd hns i j h
        have := ih j (by omega) h2
        rw [this]
        congr 1
        omega
  have := hwalk i j (by omega) heq
  exact ⟨j - i, by omega, by rw [Nat.add_comm]; exact this.symm⟩

/-- At the end of each period the denominator returns to 1. -/
theorem dS_period_one {dc : Nat} (hd : 1 < dc) (hns : ¬∃ r : Nat, r * r = dc)
    {l : Nat} (hl : 1 ≤ l) (hper : surd dc (1 + l) = surd dc 1) : dS dc l = 1 := by
  have hirr := sqrtD_irr hns
  -- `α_{l+1} = α_1`, and both are images of the step map
  have hm : mS dc (1 + l) = mS dc 1 := congrArg Prod.fst hper
  have hdv : dS dc (1 + l) = dS dc 1 := congrArg (fun s => s.2.1) hper
  have hα : alphaS dc (1 + l) = alphaS dc 1 := by rw [alphaS, alphaS, hm, hdv]
  obtain ⟨hdl, _, hml, _, hal⟩ := surd_invariant hd hns l
  have hstepl : alphaS dc l - (aS dc l : ℝ) = 1 / alphaS dc (l + 1) := by
    rw [alphaS_succ hns l (by omega), one_div_one_div]
  have hstep0 : alphaS dc 0 - (aS dc 0 : ℝ) = 1 / alphaS dc 1 := by
    rw [alphaS_succ hns 0 (by rw [dS_zero]; norm_num), one_div_one_div]
  have hcomb : alphaS dc l - (aS dc l : ℝ) = alphaS dc 0 - (aS dc 0 : ℝ) := by
    rw [hstepl, hstep0, Nat.add_comm l 1, hα]
  -- expand both sides and use irrationality of √D
  have hα0 : alphaS dc 0 = Real.sqrt dc := by
    rw [alphaS, mS_zero, dS_zero]
    push_cast
    simp
  have ha0 : (aS dc 0 : ℝ) = ((Nat.sqrt dc : Int) : ℝ) := by rw [aS_zero]
  rw [hα0, ha0, alphaS] at hcomb
  have hdlR : ((dS dc l : Int) : ℝ) ≠ 0 := by exact_mod_cast (by omega : dS dc l ≠ 0)
  by_contra hne
  refine irr_no_int_relation hirr (c := 1 - dS dc l)
    (z := aS dc l * dS dc l - mS dc l - dS dc l * (Nat.sqrt dc : Int)) (by omega) ?_
  field_simp at hcomb
  push_cast
  linear_combination hcomb

/-- Some even index `K ≥ 2` has `d_K = 1` (one or two periods out). -/
theorem exists_even_period {dc : Nat} (hd : 1 < dc) (hns : ¬∃ r : Nat, r * r = dc) :
    ∃ K : Nat, 2 ≤ K ∧ K % 2 = 0 ∧ dS dc K = 1 := by
  obtain ⟨l, hl, hper⟩ := surd_period hd hns
  rcases Nat.even_or_odd l with he | ho
  · have hmod : l % 2 = 0 := Nat.even_iff.mp he
    exact ⟨l, by omega, hmod, dS_period_one hd hns hl hper⟩
  · have hper2 : surd dc (1 + 2 * l) = surd dc 1 := by
      have hstep := surd_forward hper l
      have h1 : 1 + l + l = 1 + 2 * l := by omega
      rw [h1] at hstep
      rw [hstep, hper]
    have h2l : dS dc (2 * l) = 1 := dS_period_one hd hns (by omega) hper2
    exact ⟨2 * l, by omega, by omega, h2l⟩

/-- If the Pell test succeeds at some reachable state, the loop returns a
solution with enough fuel. -/
theorem pellLoop_succeeds {dc : Nat} : ∀ fuel j : Nat,
    (∃ i, i < fuel ∧ (stateAt dc (j + i)).p * (stateAt dc (j + i)).p -
      (dc : Int) * (stateAt dc (j + i)).q * (stateAt dc (j + i)).q = 1) →
    ∃ p q : Int,
      pellLoop (dc : Int) ((Nat.sqrt dc : Nat) : Int) fuel (stateAt dc j) = some (p, q) ∧
      p * p - (dc : Int) * q * q = 1 := by
  intro fuel
  induction fuel with
  | zero =>
    intro j ⟨i, hi, _⟩
    omega
  | succ fuel ih =>
    intro j ⟨i, hi, htest⟩
    by_cases h0 : (stateAt dc j).p * (stateAt dc j).p -
        (dc : Int) * (stateAt dc j).q * (stateAt dc j).q = 1
    · exact ⟨(stateAt dc j).p, (stateAt dc j).q, by rw [pellLoop, if_pos h0], h0⟩
    · have hi0 : i ≠ 0 := by
        rintro rfl
        rw [Nat.add_zero] at htest
        exact h0 htest
      obtain ⟨i', rfl⟩ : ∃ i', i = i' + 1 := ⟨i - 1, by omega⟩
      have hnext : pellIter (dc : Int) ((Nat.sqrt dc : Nat) : Int) (stateAt dc j) =
          stateAt dc (j + 1) := (Function.iterate_succ_apply' _ _ _).symm
      rw [pellLoop, if_neg h0, hnext]
      refine ih (j + 1) ⟨i', by omega, ?_⟩
      rw [show j + 1 + i' = j + (i' + 1) by omega]
      exact htest

/-- C3: for every valid `D < 2^64` the continued-fraction loop terminates:
some fuel makes the fueled embedding return `Ok (p, q)`, and the returned
convergent satisfies `p² − D·q² = 1`. -/
theorem claim_C3 (dc : Nat) (hd : 1 < dc) (hns : ¬∃ r : Nat, r * r = dc)
    (h64 : dc < 2 ^ 64) :
    ∃ fuel : Nat, ∃ p q : Int, pell_min_solution fuel dc = some (.ok (p, q)) ∧
      p * p - (dc : Int) * q * q = 1 := by
  obtain ⟨K, hK2, hKeven, hKd⟩ := exists_even_period hd hns
  have hconv := (conv_identity hns K).1
  rw [hKd, mul_one, Even.neg_one_pow (Nat.even_iff.mpr hKeven)] at hconv
  obtain ⟨hsp1, hsq1, hsp, hsq⟩ := stateAt_conv hd hns h64 (K - 1)
  rw [show K - 1 + 1 = K by omega] at hsp hsq
  have htest : (stateAt dc (K - 1)).p * (stateAt dc (K - 1)).p -
      (dc : Int) * (stateAt dc (K - 1)).q * (stateAt dc (K - 1)).q = 1 := by
    rw [hsp, hsq]
    linear_combination hconv
  obtain ⟨p, q, hloop, heq⟩ := pellLoop_succeeds K 0
    ⟨K - 1, by omega, by rw [Nat.zero_add]; exact htest⟩
  refine ⟨K, p, q, ?_, heq⟩
  have hisq : is_square_u64 dc = false := by
    rcases Bool.eq_false_or_eq_true (is_square_u64 dc) with h | h
    · exact absurd ((is_square_u64_iff_exists h64).mp h) hns
    · exact h
  rw [pell_min_solution, if_neg (show ¬dc ≤ 1 by omega), if_neg (by rw [hisq]; simp)]
  have hstate0 : stateAt dc 0 = pellInit ((Nat.sqrt dc : Nat) : Int) := rfl
  rw [hstate0] at hloop
  simp only [isqrt_u64_eq h64, hloop, Option.map]

/-- C3 witness: `D = 2`. -/
theorem claim_C3_witness :
    ((1 : Nat) < 2 ∧ (2 : Nat) < 2 ^ 64) ∧
    (∃ fuel : Nat, ∃ p q : Int, pell_min_solution fuel 2 = some (.ok (p, q)) ∧
      p * p - (2 : Int) * q * q = 1) :=
  ⟨⟨by norm_num, by norm_num⟩, claim_C3 2 (by norm_num) two_not_square (by norm_num)⟩

/-! ## Convergents as best approximations of `√D`

Machinery for the minimality claim: the continued-fraction identity
`√D·(q_{k}·α_{k} + q_{k-1}) = p_{k}·α_{k} + p_{k-1}`, the alternating
residuals `e_j = q_j√D − p_j`, the determinant identity, and the law of best
approximation leading to Legendre's theorem for √D. -/

/-- The residual `e_j = q_j·√D − p_j` (in the `pconv`/`qconv` indexing). -/
noncomputable def eS (dc j : Nat) : ℝ :=
  (qconv dc j : ℝ) * Real.sqrt dc - (pconv dc j : ℝ)

theorem cf_identity {dc : Nat} (hd : 1 < dc) (hns : ¬∃ r : Nat, r * r = dc) :
    ∀ k : Nat, Real.sqrt dc *
      ((qconv dc (k + 1) : ℝ) * alphaS dc (k + 1) + (qconv dc k : ℝ)) =
      (pconv dc (k + 1) : ℝ) * alphaS dc (k + 1) + (pconv dc k : ℝ) := by
  intro k
  induction k with
  | zero =>
    have h1 : (alphaS dc 0 - (aS dc 0 : ℝ)) * alphaS dc 1 = 1 := by
      have hinv : alphaS dc 0 - (aS dc 0 : ℝ) = 1 / alphaS dc 1 := by
        rw [alphaS_succ hns 0 (by rw [dS_zero]; norm_num), one_div_one_div]
      rw [hinv]
      have hpos : 0 < alphaS dc 1 := lt_trans one_pos (surd_reduced hd hns 0).1
      field_simp
    have hα0 : alphaS dc 0 = Real.sqrt dc := by
      rw [alphaS, mS_zero, dS_zero]
      push_cast
      simp
    have ha0 : (aS dc 0 : ℝ) = ((Nat.sqrt dc : Int) : ℝ) := by rw [aS_zero]
    rw [hα0, ha0] at h1
    show Real.sqrt dc * ((qconv dc 1 : ℝ) * alphaS dc 1 + (qconv dc 0 : ℝ)) =
      (pconv dc 1 : ℝ) * alphaS dc 1 + (pconv dc 0 : ℝ)
    rw [qconv, qconv, pconv, pconv]
    push_cast
    linear_combination h1
  | succ k ih =>
    have hred := surd_reduced hd hns (k + 1)
    have hdk1 : 0 < dS dc (k + 1) := (reduced_bounds hd (surd_reduced hd hns k)).1
    have hprod : (alphaS dc (k + 1) - (aS dc (k + 1) : ℝ)) * alphaS dc (k + 2) = 1 := by
      have hinv : alphaS dc (k + 1) - (aS dc (k + 1) : ℝ) = 1 / alphaS dc (k + 2) := by
        rw [alphaS_succ hns (k + 1) (ne_of_gt hdk1), one_div_one_div]
      rw [hinv]
      have hpos : 0 < alphaS dc (k + 2) := lt_trans one_pos hred.1
      field_simp
    show Real.sqrt dc * ((qconv dc (k + 2) : ℝ) * alphaS dc (k + 2) + (qconv dc (k + 1) : ℝ)) =
      (pconv dc (k + 2) : ℝ) * alphaS dc (k + 2) + (pconv dc (k + 1) : ℝ)
    rw [qconv, pconv]
    push_cast
    linear_combination alphaS dc (k + 2) * ih +
      ((pconv dc (k + 1) : ℝ) - Real.sqrt dc * (qconv dc (k + 1) : ℝ)) * hprod

/-- Residual recurrence: `e_k = −α_{k+1} · e_{k+1}`. -/
theorem eS_rec {dc : Nat} (hd : 1 < dc) (hns : ¬∃ r : Nat, r * r = dc) (k : Nat) :
    eS dc k = -alphaS dc (k + 1) * eS dc (k + 1) := by
  have := cf_identity hd hns k
  rw [eS, eS]
  linear_combination this

/-- The residuals alternate in sign: `(−1)^{k+1}·e_k > 0`. -/
theorem eS_alt {dc : Nat} (hd : 1 < dc) (hns : ¬∃ r : Nat, r * r = dc) :
    ∀ k : Nat, 0 < (-1 : ℝ) ^ (k + 1) * eS dc k := by
  have he0 : eS dc 0 = -1 := by
    rw [eS, qconv, pconv]
    push_cast
    ring
  have he1 : eS dc 1 = Real.sqrt dc - ((Nat.sqrt dc : Int) : ℝ) := by
    rw [eS, qconv, pconv]
    push_cast
    ring
  intro k
  induction k with
  | zero =>
    rw [he0]
    norm_num
  | succ k ih =>
    have hrec := eS_rec hd hns k
    have hα : 1 < alphaS dc (k + 1) := (surd_reduced hd hns k).1
    have hsign : eS dc (k + 1) = -eS dc k / alphaS dc (k + 1) := by
      rw [hrec]
      field_simp
    rw [hsign]
    have hpow : (-1 : ℝ) ^ (k + 1 + 1) = -((-1 : ℝ) ^ (k + 1)) := by ring
    rw [hpow]
    have : 0 < ((-1 : ℝ) ^ (k + 1) * eS dc k) / alphaS dc (k + 1) :=
      div_pos ih (by linarith)
    calc (0 : ℝ) < ((-1 : ℝ) ^ (k + 1) * eS dc k) / alphaS dc (k + 1) := this
      _ = -((-1 : ℝ) ^ (k + 1)) * (-eS dc k / alphaS dc (k + 1)) := by ring

/-- The magnitude of the residuals strictly decreases. -/
theorem eS_abs_lt {dc : Nat} (hd : 1 < dc) (hns : ¬∃ r : Nat, r * r = dc) (k : Nat) :
    |eS dc (k + 1)| < |eS dc k| := by
  have hrec := eS_rec hd hns k
  have hα : 1 < alphaS dc (k + 1) := (surd_reduced hd hns k).1
  have hne : eS dc (k + 1) ≠ 0 := by
    intro h0
    have := eS_alt hd hns (k + 1)
    rw [h0, mul_zero] at this
    exact lt_irrefl 0 this
  rw [hrec, neg_mul, abs_neg, abs_mul, abs_of_pos (by linarith : (0:ℝ) < alphaS dc (k + 1))]
  have habs : 0 < |eS dc (k + 1)| := abs_pos.mpr hne
  nlinarith

/-- Determinant identity `p_{k+1}·q_k − p_k·q_{k+1} = (−1)^{k+1}`. -/
theorem conv_det (dc : Nat) : ∀ k : Nat,
    pconv dc (k + 1) * qconv dc k - pconv dc k * qconv dc (k + 1) = (-1) ^ (k + 1) := by
  intro k
  induction k with
  | zero =>
    rw [pconv, pconv, qconv, qconv]
    ring
  | succ k ih =>
    rw [pconv, qconv]
    linear_combination (-1) * ih

theorem qconv_step {dc : Nat} (hd : 1 < dc) (hns : ¬∃ r : Nat, r * r = dc) :
    ∀ k, 0 ≤ qconv dc k ∧ qconv dc k ≤ qconv dc (k + 1) := by
  intro k
  induction k with
  | zero =>
    rw [qconv, qconv]
    norm_num
  | succ k ih =>
    have ha := (surd_invariant hd hns (k + 1)).2.2.2.2
    obtain ⟨h0, h1⟩ := ih
    have h2 : 0 ≤ qconv dc (k + 1) := le_trans h0 h1
    refine ⟨h2, ?_⟩
    rw [qconv]
    nlinarith

theorem qconv_mono {dc : Nat} (hd : 1 < dc) (hns : ¬∃ r : Nat, r * r = dc) :
    Monotone (qconv dc) :=
  monotone_nat_of_le_succ fun k => (qconv_step hd hns k).2

theorem qconv_pos {dc : Nat} (hd : 1 < dc) (hns : ¬∃ r : Nat, r * r = dc) (k : Nat) :
    1 ≤ qconv dc (k + 1) := by
  have h1 : qconv dc 1 = 1 := by rw [qconv]
  have := qconv_mono hd hns (show 1 ≤ k + 1 by omega)
  omega

theorem pconv_step {dc : Nat} (hd : 1 < dc) (hns : ¬∃ r : Nat, r * r = dc) :
    ∀ k, 1 ≤ pconv dc k ∧ pconv dc k ≤ pconv dc (k + 1) := by
  intro k
  induction k with
  | zero =>
    rw [pconv, pconv]
    exact ⟨le_refl 1, one_le_a0 hd⟩
  | succ k ih =>
    have ha := (surd_invariant hd hns (k + 1)).2.2.2.2
    obtain ⟨h0, h1⟩ := ih
    have h2 : 1 ≤ pconv dc (k + 1) := le_trans h0 h1
    refine ⟨h2, ?_⟩
    rw [pconv]
    nlinarith

theorem pconv_mono {dc : Nat} (hd : 1 < dc) (hns : ¬∃ r : Nat, r * r = dc) :
    Monotone (pconv dc) :=
  monotone_nat_of_le_succ fun k => (pconv_step hd hns k).2

/-- Fibonacci-type growth: the convergent denominators are unbounded. -/
theorem qconv_ge {dc : Nat} (hd : 1 < dc) (hns : ¬∃ r : Nat, r * r = dc) : ∀ k : Nat,
    (k : Int) ≤ qconv dc (k + 1) := by
  intro k
  induction k using Nat.strong_induction_on with
  | _ k ih =>
    match k with
    | 0 => rw [qconv]; norm_num
    | 1 =>
      have := qconv_pos hd hns 1
      omega
    | (k + 2) =>
      have h1 : ((k + 1 : ℕ) : Int) ≤ qconv dc (k + 2) := ih (k + 1) (by omega)
      have h1' : 1 ≤ qconv dc (k + 1) := qconv_pos hd hns k
      have ha := (surd_invariant hd hns (k + 2)).2.2.2.2
      have h3 : 0 ≤ qconv dc (k + 2) := by
        have := qconv_pos hd hns (k + 1)
        omega
      have hq : qconv dc (k + 3) = aS dc (k + 2) * qconv dc (k + 2) + qconv dc (k + 1) := by
        rw [qconv]
      show ((k + 2 : ℕ) : Int) ≤ qconv dc (k + 3)
      push_cast at h1 ⊢
      nlinarith [mul_nonneg (by linarith : (0 : Int) ≤ aS dc (k + 2) - 1) h3]

/-- Every `y ≥ 1` lies in a window `q_k ≤ y < q_{k+1}` with `k ≥ 1`. -/
theorem exists_frame {dc : Nat} (hd : 1 < dc) (hns : ¬∃ r : Nat, r * r = dc)
    (y : Int) (hy : 1 ≤ y) : ∃ k, 1 ≤ k ∧ qconv dc k ≤ y ∧ y < qconv dc (k + 1) := by
  have hP : ∃ j : Nat, y < qconv dc (j + 1) := by
    refine ⟨y.toNat + 1, ?_⟩
    have := qconv_ge hd hns (y.toNat + 1)
    omega
  have hj0 : y < qconv dc (Nat.find hP + 1) := Nat.find_spec hP
  have hmin : ∀ i, i < Nat.find hP → ¬(y < qconv dc (i + 1)) := fun i hi => Nat.find_min hP hi
  rcases Nat.eq_zero_or_pos (Nat.find hP) with h0 | hpos
  · rw [h0] at hj0
    norm_num at hj0
    have h1 : qconv dc 1 = 1 := by rw [qconv]
    omega
  · refine ⟨Nat.find hP, hpos, ?_, hj0⟩
    have hlast := hmin (Nat.find hP - 1) (by omega)
    push_neg at hlast
    rw [show Nat.find hP - 1 + 1 = Nat.find hP by omega] at hlast
    exact hlast

/-- A positive Pell solution approximates `√D` to quality better than
`1/(2y²)`. -/
theorem sol_quality {dc : Nat} (hd : 1 < dc) {x y : Int} (hx : 0 < x) (hy : 0 < y)
    (hsol : x * x - (dc : Int) * (y * y) = 1) :
    0 < (x : ℝ) - (y : ℝ) * Real.sqrt dc ∧
      ((x : ℝ) - (y : ℝ) * Real.sqrt dc) * (2 * (y : ℝ)) < 1 := by
  have hs1 : 1 < Real.sqrt dc := one_lt_sqrtD hd
  have hsq : Real.sqrt dc * Real.sqrt dc = ((dc : Nat) : ℝ) :=
    Real.mul_self_sqrt (by positivity)
  have hxR : (0 : ℝ) < (x : ℝ) := by exact_mod_cast hx
  have hyR : (0 : ℝ) < (y : ℝ) := by exact_mod_cast hy
  have hsolR : (x : ℝ) * x - ((dc : Nat) : ℝ) * ((y : ℝ) * y) = 1 := by
    exact_mod_cast congrArg (Int.cast : Int → ℝ) hsol
  have hprod : ((x : ℝ) - y * Real.sqrt dc) * ((x : ℝ) + y * Real.sqrt dc) = 1 := by
    linear_combination hsolR - (y : ℝ) * (y : ℝ) * hsq
  have hsum : 0 < (x : ℝ) + y * Real.sqrt dc := by positivity
  have hpos : 0 < (x : ℝ) - y * Real.sqrt dc := by nlinarith
  refine ⟨hpos, ?_⟩
  have hygt : (y : ℝ) < (y : ℝ) * Real.sqrt dc := by nlinarith
  have hxgt : (y : ℝ) * Real.sqrt dc < x := by nlinarith
  have h2y : 2 * (y : ℝ) < (x : ℝ) + y * Real.sqrt dc := by linarith
  nlinarith

theorem conv_coprime (dc k : Nat) : IsCoprime (qconv dc k) (pconv dc k) := by
  refine ⟨(-1 : Int) ^ (k + 1) * pconv dc (k + 1), -((-1 : Int) ^ (k + 1)) * qconv dc (k + 1), ?_⟩
  have hdet := conv_det dc k
  have hσ : ((-1 : Int) ^ (k + 1)) * ((-1 : Int) ^ (k + 1)) = 1 := by
    rcases Nat.even_or_odd (k + 1) with h | h
    · rw [Even.neg_one_pow h]; norm_num
    · rw [Odd.neg_one_pow h]; norm_num
  linear_combination ((-1 : Int) ^ (k + 1)) * hdet + hσ

set_option maxHeartbeats 1600000 in
/-- Legendre's theorem specialized to `√D`: every positive solution of the
Pell equation appears among the convergents of the continued fraction. -/
theorem solution_is_convergent {dc : Nat} (hd : 1 < dc) (hns : ¬∃ r : Nat, r * r = dc)
    {x y : Int} (hx : 0 < x) (hy : 0 < y) (hsol : x * x - (dc : Int) * (y * y) = 1) :
    ∃ k, 1 ≤ k ∧ x = pconv dc k ∧ y = qconv dc k := by
  obtain ⟨hpos, hqual⟩ := sol_quality hd hx hy hsol
  obtain ⟨k, hk1, hfr1, hfr2⟩ := exists_frame hd hns y hy
  have hdet : pconv dc (k + 1) * qconv dc k - pconv dc k * qconv dc (k + 1) =
      (-1) ^ (k + 1) := conv_det dc k
  have hσ : ((-1 : Int) ^ (k + 1)) * ((-1 : Int) ^ (k + 1)) = 1 := by
    rcases Nat.even_or_odd (k + 1) with h | h
    · rw [Even.neg_one_pow h]; norm_num
    · rw [Odd.neg_one_pow h]; norm_num
  have hσpm : ((-1 : Int) ^ (k + 1)) = 1 ∨ ((-1 : Int) ^ (k + 1)) = -1 := by
    rcases Int.mul_eq_one_iff_eq_one_or_neg_one.mp hσ with ⟨h, _⟩ | ⟨h, _⟩
    · exact Or.inl h
    · exact Or.inr h
  have hσne : ((-1 : Int) ^ (k + 1)) ≠ 0 := by
    rcases hσpm with h | h <;> rw [h] <;> norm_num
  have hq0pos : 1 ≤ qconv dc k := by
    have := qconv_pos hd hns (k - 1)
    rwa [show k - 1 + 1 = k by omega] at this
  have hq1pos : 1 ≤ qconv dc (k + 1) := qconv_pos hd hns k
  set σ : Int := (-1) ^ (k + 1) with hσdef
  set μ : Int := σ * (y * pconv dc (k + 1) - x * qconv dc (k + 1)) with hμdef
  set ν : Int := σ * (x * qconv dc k - y * pconv dc k) with hνdef
  have hrepx : x = μ * pconv dc k + ν * pconv dc (k + 1) := by
    rw [hμdef, hνdef]
    linear_combination ((-σ) * x) * hdet + (-x) * hσ
  have hrepy : y = μ * qconv dc k + ν * qconv dc (k + 1) := by
    rw [hμdef, hνdef]
    linear_combination ((-σ) * y) * hdet + (-y) * hσ
  by_cases hν0 : ν = 0
  · -- `x/y` is exactly the k-th convergent
    have hxy : x * qconv dc k = y * pconv dc k := by
      rw [hνdef] at hν0
      rcases mul_eq_zero.mp hν0 with h | h
      · exact absurd h hσne
      · linarith
    have hcop : IsCoprime (qconv dc k) (pconv dc k) := conv_coprime dc k
    have hdvd : qconv dc k ∣ y :=
      hcop.dvd_of_dvd_mul_right ⟨x, by linarith⟩
    obtain ⟨c, hc⟩ := hdvd
    have hxc : x = pconv dc k * c := by
      have h2 : x * qconv dc k = (pconv dc k * c) * qconv dc k := by
        rw [hxy, hc]
        ring
      exact mul_right_cancel₀ (by omega) h2
    have hc1 : 1 ≤ c := by nlinarith
    have hPell : (c * c) * (pconv dc k * pconv dc k -
        (dc : Int) * (qconv dc k * qconv dc k)) = 1 := by
      rw [hxc, hc] at hsol
      linear_combination hsol
    have hcdvd : c ∣ 1 :=
      ⟨c * (pconv dc k * pconv dc k - (dc : Int) * (qconv dc k * qconv dc k)),
        by linear_combination -hPell⟩
    have hcc : c = 1 := by
      rcases Int.isUnit_iff.mp (isUnit_of_dvd_one hcdvd) with h | h
      · exact h
      · omega
    exact ⟨k, hk1, by rw [hxc, hcc, mul_one], by rw [hc, hcc, mul_one]⟩
  · -- the window forces a contradiction with best approximation
    exfalso
    have hμ0 : μ ≠ 0 := by
      intro h0
      rw [h0, zero_mul, zero_add] at hrepy
      have hν1 : 1 ≤ ν := by nlinarith
      nlinarith
    have hsigns : (1 ≤ μ ∧ ν ≤ -1) ∨ (μ ≤ -1 ∧ 1 ≤ ν) := by
      rcases lt_trichotomy μ 0 with hμn | hμz | hμp
      · refine Or.inr ⟨by omega, ?_⟩
        by_contra hνn
        push_neg at hνn
        have hν1 : ν ≤ -1 := by omega
        nlinarith
      · exact absurd hμz hμ0
      · refine Or.inl ⟨by omega, ?_⟩
        by_contra hνn
        push_neg at hνn
        have hν1 : 1 ≤ ν := by omega
        nlinarith
    -- pass to the reals
    set s : ℝ := Real.sqrt dc with hsdef
    have hu : 0 < ((σ : Int) : ℝ) * eS dc k := by
      have := eS_alt hd hns k
      have hcast : (((-1 : Int) ^ (k + 1) : Int) : ℝ) = (-1 : ℝ) ^ (k + 1) := by push_cast; ring
      rw [hσdef, hcast]
      exact this
    have hv : 0 < -((σ : Int) : ℝ) * eS dc (k + 1) := by
      have := eS_alt hd hns (k + 1)
      have hcast : -(((-1 : Int) ^ (k + 1) : Int) : ℝ) = (-1 : ℝ) ^ (k + 1 + 1) := by
        push_cast
        ring
      rw [hσdef, hcast]
      exact this
    have hrepR : (x : ℝ) - (y : ℝ) * s =
        -(μ : ℝ) * eS dc k - (ν : ℝ) * eS dc (k + 1) := by
      have hxR : ((x : Int) : ℝ) = ((μ * pconv dc k + ν * pconv dc (k + 1) : Int) : ℝ) :=
        congrArg (Int.cast : Int → ℝ) hrepx
      have hyR : ((y : Int) : ℝ) = ((μ * qconv dc k + ν * qconv dc (k + 1) : Int) : ℝ) :=
        congrArg (Int.cast : Int → ℝ) hrepy
      push_cast at hxR hyR
      rw [eS, eS, ← hsdef]
      linear_combination hxR - s * hyR
    -- best approximation: `x − y√D` exceeds `|e_k|`
    have hbest : ((σ : Int) : ℝ) * eS dc k < (x : ℝ) - (y : ℝ) * s := by
      rcases hσpm with h1 | h1 <;> rcases hsigns with ⟨hμs, hνs⟩ | ⟨hμs, hνs⟩
      · -- σ = 1, μ ≥ 1, ν ≤ −1 : the representation would be negative
        exfalso
        have hμR : (1 : ℝ) ≤ (μ : ℝ) := by exact_mod_cast hμs
        have hνR : (ν : ℝ) ≤ -1 := by exact_mod_cast hνs
        have hsign : ((σ : Int) : ℝ) = 1 := by rw [h1]; norm_num
        rw [hsign, one_mul] at hu
        rw [hsign] at hv
        norm_num at hv
        nlinarith [hrepR, hpos]
      · have hμR : ((μ : Int) : ℝ) ≤ -1 := by exact_mod_cast hμs
        have hνR : (1 : ℝ) ≤ ((ν : Int) : ℝ) := by exact_mod_cast hνs
        have hsign : ((σ : Int) : ℝ) = 1 := by rw [h1]; norm_num
        rw [hsign, one_mul] at hu ⊢
        rw [hsign] at hv
        norm_num at hv
        nlinarith [hrepR]
      · have hμR : (1 : ℝ) ≤ ((μ : Int) : ℝ) := by exact_mod_cast hμs
        have hνR : ((ν : Int) : ℝ) ≤ -1 := by exact_mod_cast hνs
        have hsign : ((σ : Int) : ℝ) = -1 := by rw [h1]; norm_num
        rw [hsign] at hu hv ⊢
        norm_num at hv ⊢
        nlinarith [hrepR]
      · -- σ = −1, μ ≤ −1, ν ≥ 1 : the representation would be negative
        exfalso
        have hμR : ((μ : Int) : ℝ) ≤ -1 := by exact_mod_cast hμs
        have hνR : (1 : ℝ) ≤ ((ν : Int) : ℝ) := by exact_mod_cast hνs
        have hsign : ((σ : Int) : ℝ) = -1 := by rw [h1]; norm_num
        rw [hsign] at hu hv
        norm_num at hu hv
        nlinarith [hrepR, hpos]
    -- the Legendre chain
    have hvne : x * qconv dc k - y * pconv dc k ≠ 0 := by
      intro h0
      apply hν0
      rw [hνdef, h0, mul_zero]
    have habs1 : (1 : ℝ) ≤ |((x * qconv dc k - y * pconv dc k : Int) : ℝ)| := by
      rw [← Int.cast_abs]
      exact_mod_cast Int.one_le_abs (by omega)
    have hval : ((x * qconv dc k - y * pconv dc k : Int) : ℝ) =
        (qconv dc k : ℝ) * ((x : ℝ) - (y : ℝ) * s) + (y : ℝ) * eS dc k := by
      rw [eS, ← hsdef]
      push_cast
      ring
    have hyR : (0 : ℝ) < (y : ℝ) := by exact_mod_cast hy
    have hq0R : (1 : ℝ) ≤ ((qconv dc k : Int) : ℝ) := by exact_mod_cast hq0pos
    have hq0yR : ((qconv dc k : Int) : ℝ) ≤ (y : ℝ) := by exact_mod_cast hfr1
    have huabs : |eS dc k| = ((σ : Int) : ℝ) * eS dc k := by
      rcases hσpm with h1 | h1
      · have hp : 0 < eS dc k := by
          have h2 := hu
          rw [h1] at h2
          norm_num at h2
          exact h2
        rw [h1]
        norm_num
        exact le_of_lt hp
      · have hn : eS dc k < 0 := by
          have h2 := hu
          rw [h1] at h2
          norm_num at h2
          linarith
        rw [h1]
        norm_num
        exact le_of_lt hn
    have htri : |((x * qconv dc k - y * pconv dc k : Int) : ℝ)| ≤
        (qconv dc k : ℝ) * ((x : ℝ) - (y : ℝ) * s) + (y : ℝ) * |eS dc k| := by
      rw [hval]
      calc |(qconv dc k : ℝ) * ((x : ℝ) - (y : ℝ) * s) + (y : ℝ) * eS dc k| ≤
          |(qconv dc k : ℝ) * ((x : ℝ) - (y : ℝ) * s)| + |(y : ℝ) * eS dc k| := abs_add _ _
        _ = (qconv dc k : ℝ) * ((x : ℝ) - (y : ℝ) * s) + (y : ℝ) * |eS dc k| := by
            rw [abs_mul, abs_mul, abs_of_pos hpos, abs_of_pos hyR,
              abs_of_nonneg (by linarith : (0:ℝ) ≤ ((qconv dc k : Int) : ℝ))]
    have hhalf1 : (qconv dc k : ℝ) * ((x : ℝ) - (y : ℝ) * s) < 1 / 2 := by
      have h1 : (qconv dc k : ℝ) * ((x : ℝ) - (y : ℝ) * s) ≤
          (y : ℝ) * ((x : ℝ) - (y : ℝ) * s) :=
        mul_le_mul_of_nonneg_right hq0yR (le_of_lt hpos)
      nlinarith
    have hhalf2 : (y : ℝ) * |eS dc k| < 1 / 2 := by
      rw [huabs]
      have h1 : (y : ℝ) * (((σ : Int) : ℝ) * eS dc k) <
          (y : ℝ) * ((x : ℝ) - (y : ℝ) * s) :=
        mul_lt_mul_of_pos_left hbest hyR
      nlinarith
    linarith

/-- For a valid discriminant the solver is the loop (no error branch taken). -/
theorem pell_min_solution_valid {dc : Nat} (hd : 1 < dc) (hns : ¬∃ r : Nat, r * r = dc)
    (h64 : dc < 2 ^ 64) (fuel : Nat) :
    pell_min_solution fuel dc =
      (pellLoop (dc : Int) ((Nat.sqrt dc : Nat) : Int) fuel
        (pellInit ((Nat.sqrt dc : Nat) : Int))).map .ok := by
  have hisq : is_square_u64 dc = false := by
    rcases Bool.eq_false_or_eq_true (is_square_u64 dc) with h | h
    · exact absurd ((is_square_u64_iff_exists h64).mp h) hns
    · exact h
  rw [pell_min_solution, if_neg (show ¬dc ≤ 1 by omega), if_neg (by rw [hisq]; simp)]
  simp only [isqrt_u64_eq h64]

/-- The loop's return value is the convergent at the *first* success index. -/
theorem pellLoop_first {dc : Nat} : ∀ (fuel j : Nat) (v : Int × Int),
    pellLoop (dc : Int) ((Nat.sqrt dc : Nat) : Int) fuel (stateAt dc j) = some v →
    ∃ i, (∀ i', i' < i → ¬((stateAt dc (j + i')).p * (stateAt dc (j + i')).p -
        (dc : Int) * (stateAt dc (j + i')).q * (stateAt dc (j + i')).q = 1)) ∧
      ((stateAt dc (j + i)).p * (stateAt dc (j + i)).p -
        (dc : Int) * (stateAt dc (j + i)).q * (stateAt dc (j + i)).q = 1) ∧
      v = ((stateAt dc (j + i)).p, (stateAt dc (j + i)).q) := by
  intro fuel
  induction fuel with
  | zero =>
    intro j v h
    rw [pellLoop] at h
    exact absurd h (by simp)
  | succ fuel ih =>
    intro j v h
    rw [pellLoop] at h
    by_cases h0 : (stateAt dc j).p * (stateAt dc j).p -
        (dc : Int) * (stateAt dc j).q * (stateAt dc j).q = 1
    · rw [if_pos h0] at h
      refine ⟨0, by omega, by rw [Nat.add_zero]; exact h0, ?_⟩
      rw [Nat.add_zero]
      exact (Option.some.injEq _ _ ▸ h).symm
    · rw [if_neg h0] at h
      have hnext : pellIter (dc : Int) ((Nat.sqrt dc : Nat) : Int) (stateAt dc j) =
          stateAt dc (j + 1) := (Function.iterate_succ_apply' _ _ _).symm
      rw [hnext] at h
      obtain ⟨i, hmin, htest, hv⟩ := ih (j + 1) v h
      refine ⟨i + 1, ?_, ?_, ?_⟩
      · intro i' hi'
        cases i' with
        | zero => rw [Nat.add_zero]; exact h0
        | succ i'' =>
          have := hmin i'' (by omega)
          rwa [show j + 1 + i'' = j + (i'' + 1) by omega] at this
      · rwa [show j + 1 + i = j + (i + 1) by omega] at htest
      · rwa [show j + 1 + i = j + (i + 1) by omega] at hv

set_option maxHeartbeats 800000 in
/-- C1: for every valid `D < 2^64` the solver terminates with `Ok (x, y)`
where `x, y` are positive, `x² − D·y² = 1` (so `verify_pell_solution` is
true), and no positive pair `(x', y')` with `x' < x` satisfies the equation:
the returned pair is the minimal (fundamental) solution. -/
theorem claim_C1 (dc : Nat) (hd : 1 < dc) (hns : ¬∃ r : Nat, r * r = dc)
    (h64 : dc < 2 ^ 64) :
    ∃ (fuel : Nat) (x y : Int),
      pell_min_solution fuel dc = some (.ok (x, y)) ∧ 0 < x ∧ 0 < y ∧
      verify_pell_solution dc x y = true ∧
      ∀ x' y' : Int, 0 < x' → 0 < y' → x' * x' - (dc : Int) * (y' * y') = 1 → x ≤ x' := by
  -- termination within an even period (as for C3)
  obtain ⟨K, hK2, hKeven, hKd⟩ := exists_even_period hd hns
  have hconv := (conv_identity hns K).1
  rw [hKd, mul_one, Even.neg_one_pow (Nat.even_iff.mpr hKeven)] at hconv
  obtain ⟨hsp1, hsq1, hsp, hsq⟩ := stateAt_conv hd hns h64 (K - 1)
  rw [show K - 1 + 1 = K by omega] at hsp hsq
  have htestK : (stateAt dc (K - 1)).p * (stateAt dc (K - 1)).p -
      (dc : Int) * (stateAt dc (K - 1)).q * (stateAt dc (K - 1)).q = 1 := by
    rw [hsp, hsq]
    linear_combination hconv
  obtain ⟨p, q, hloop, heq⟩ := pellLoop_succeeds K 0
    ⟨K - 1, by omega, by rw [Nat.zero_add]; exact htestK⟩
  -- the returned pair sits at the first success index
  have hstate0 : pellInit ((Nat.sqrt dc : Nat) : Int) = stateAt dc 0 := rfl
  obtain ⟨i, hmin, htest, hveq⟩ := @pellLoop_first dc K 0 (p, q) hloop
  obtain ⟨hip1, hiq1, hip, hiq⟩ := stateAt_conv hd hns h64 (0 + i)
  have hpi : p = pconv dc (0 + i + 1) := by
    have := congrArg Prod.fst hveq
    simp only at this
    rw [this]
    exact hip
  have hqi : q = qconv dc (0 + i + 1) := by
    have := congrArg Prod.snd hveq
    simp only at this
    rw [this]
    exact hiq
  rw [show 0 + i + 1 = i + 1 by omega] at hpi hqi
  refine ⟨K, p, q, ?_, ?_, ?_, ?_, ?_⟩
  · rw [pell_min_solution_valid hd hns h64 K, hstate0, hloop]
    rfl
  · rw [hpi]
    have := (pconv_step hd hns (i + 1)).1
    omega
  · rw [hqi]
    have := qconv_pos hd hns i
    omega
  · rw [verify_pell_solution]
    have : p * p = (dc : Int) * q * q + 1 := by linear_combination heq
    rw [this]
    simp
  · intro x' y' hx' hy' hsol'
    obtain ⟨k', hk'1, hx'eq, hy'eq⟩ := solution_is_convergent hd hns hx' hy' hsol'
    -- the (k'−1)-th state passes the test, so the first success is at most it
    obtain ⟨hjp1, hjq1, hjp, hjq⟩ := stateAt_conv hd hns h64 (0 + (k' - 1))
    rw [show (0 : Nat) + (k' - 1) = k' - 1 by omega, show k' - 1 + 1 = k' by omega] at hjp hjq
    have htestk' : (stateAt dc (0 + (k' - 1))).p * (stateAt dc (0 + (k' - 1))).p -
        (dc : Int) * (stateAt dc (0 + (k' - 1))).q * (stateAt dc (0 + (k' - 1))).q = 1 := by
      rw [show (0 : Nat) + (k' - 1) = k' - 1 by omega, hjp, hjq, ← hx'eq, ← hy'eq]
      linear_combination hsol'
    have hile : i ≤ k' - 1 := by
      by_contra hgt
      push_neg at hgt
      exact hmin (k' - 1) hgt htestk'
    have hmono : pconv dc (i + 1) ≤ pconv dc k' :=
      pconv_mono hd hns (by omega : i + 1 ≤ k')
    rw [hpi, hx'eq]
    exact hmono

/-- C1 witness: `D = 2`. -/
theorem claim_C1_witness :
    ((1 : Nat) < 2 ∧ (2 : Nat) < 2 ^ 64) ∧
    (∃ (fuel : Nat) (x y : Int),
      pell_min_solution fuel 2 = some (.ok (x, y)) ∧ 0 < x ∧ 0 < y ∧
      verify_pell_solution 2 x y = true ∧
      ∀ x' y' : Int, 0 < x' → 0 < y' → x' * x' - (2 : Int) * (y' * y') = 1 → x ≤ x') :=
  ⟨⟨by norm_num, by norm_num⟩, claim_C1 2 (by norm_num) two_not_square (by norm_num)⟩

end Pell991
